import Mathlib

/-!
Shallow embedding of the `crop` package (border location and cropping for
rasterized images).  The source ships two variants of the engine: an
extended profile (32-bit base hash plus 32-bit contrast hash) and a
simplified profile (single 64-bit hash); they are embedded below in the
namespaces `Extended` and `Simplified`.  Definitions shared verbatim by the
two variants (points, rectangles, the naive scanner, `Crop`) appear once at
top level.

Machine integers are modelled as `Nat`/`Int` with explicit wrap-around
(`% 4294967296` for `uint32`); Go runtime panics (integer divide by zero,
nil interface dereference, negative shift) are modelled by `Except Fault`,
and loops carry an explicit iteration budget (`Fault.outOfFuel` marks a
budget overrun, which the termination theorems rule out).
-/

/-- Decidable equality for `Except`, used to evaluate the embedding on
concrete inputs. -/
instance {ε α : Type} [DecidableEq ε] [DecidableEq α] : DecidableEq (Except ε α) := fun a b =>
  match a, b with
  | .error x, .error y =>
    if h : x = y then isTrue (congrArg Except.error h)
    else isFalse (fun hh => h (Except.error.inj hh))
  | .ok x, .ok y =>
    if h : x = y then isTrue (congrArg Except.ok h)
    else isFalse (fun hh => h (Except.ok.inj hh))
  | .error _, .ok _ => isFalse (fun hh => Except.noConfusion hh)
  | .ok _, .error _ => isFalse (fun hh => Except.noConfusion hh)

namespace Crop

/-- Runtime outcomes that abort a Go computation, plus the fuel marker used
by the embedding of unbounded `for` loops. -/
inductive Fault where
  | divideByZero
  | nilPointer
  | negativeShift
  | outOfFuel
deriving DecidableEq

/-- Go `image.Point`. -/
structure Pt where
  x : Int
  y : Int
deriving DecidableEq

/-- Go `Point.Add`. -/
def Pt.add (p q : Pt) : Pt := ⟨p.x + q.x, p.y + q.y⟩

/-- Go `Point.Sub`. -/
def Pt.sub (p q : Pt) : Pt := ⟨p.x - q.x, p.y - q.y⟩

/-- Repeated `Point.Add`: the point reached after `n` steps of `d`. -/
def Pt.smul (n : Nat) (d : Pt) : Pt := ⟨n * d.x, n * d.y⟩

/-- Go `image.Rectangle`, coordinates min-inclusive / max-exclusive. -/
structure Rect where
  minX : Int
  minY : Int
  maxX : Int
  maxY : Int
deriving DecidableEq

/-- Go `Point.In`: `r.Min.X <= p.X && p.X < r.Max.X && r.Min.Y <= p.Y && p.Y < r.Max.Y`. -/
def Pt.inRect (p : Pt) (r : Rect) : Bool :=
  decide (r.minX ≤ p.x) && decide (p.x < r.maxX) &&
    decide (r.minY ≤ p.y) && decide (p.y < r.maxY)

/-- Go `image.Rect(x0, y0, x1, y1)`: swaps coordinates per axis so the
result is well-formed. -/
def mkRect (x0 y0 x1 y1 : Int) : Rect :=
  ⟨min x0 x1, min y0 y1, max x0 x1, max y0 y1⟩

/-- The raster (Go `image.Image`), reduced to what the code reads: bounds
and the per-pixel gray value.  `At` is the luminance produced by
`color.GrayModel.Convert(img.At(x, y)).(color.Gray).Y`; that conversion
returns a `color.Gray` for every color, so the type assertion in the source
always succeeds and the loop bodies always run.  Values lie in `[0, 255]`.
`isRGBA64Image` and `hasSubImage` record whether the dynamic type satisfies
the optional `image.RGBA64Image` and `SubImage` interfaces. -/
structure Raster where
  bounds : Rect
  At : Int → Int → Nat
  isRGBA64Image : Bool
  hasSubImage : Bool

def grayDarknessLimit : Nat := 128

def minDistinctBitsBetweenLines : Nat := 1

def maxDistinctBitsBetweenLines : Nat := 3

def blackHighContrastThreshold : Nat := 30

def whiteHighContrastThreshold : Nat := 230

def highContrastPercent : Nat := 12

/-- Population count (`math/bits.OnesCount32/64`) on `Nat`, computed with a
structural fuel so that it reduces by evaluation; `n` halvings always
suffice. -/
def popCountAux : Nat → Nat → Nat
  | 0, _ => 0
  | fuel + 1, n => if n = 0 then 0 else n % 2 + popCountAux fuel (n / 2)

def popCount (n : Nat) : Nat := popCountAux n n

/-- Iteration budget for the embedded loops: width + height + 2 steps cover
every walk the code performs (one inward pass, plus the exit test). -/
def scanFuel (r : Rect) : Nat :=
  (r.maxX - r.minX).toNat + (r.maxY - r.minY).toNat + 2

/-- Go `setBit32`: `n |= 1 << pos` on `uint32`.  A shift count that is at
least the width yields 0 in Go, so the call is a no-op; a negative shift
count panics. -/
def setBit32 (n : Nat) (pos : Int) : Except Fault Nat :=
  if pos < 0 then .error .negativeShift
  else if pos < 32 then .ok (n ||| (1 <<< pos.toNat))
  else .ok n

/-- Go `setBit64`: `n |= 1 << pos` on `uint64`. -/
def setBit64 (n : Nat) (pos : Int) : Except Fault Nat :=
  if pos < 0 then .error .negativeShift
  else if pos < 64 then .ok (n ||| (1 <<< pos.toNat))
  else .ok n

/-- Conversion `uint32(v)` of a Go `int`, as a `Nat` below `2^32`. -/
def uint32Of (v : Int) : Nat := (Int.emod v 4294967296).toNat

/-- Go comparison `count > float64(windowSize)*highContrastPercent/100`
where `count` is an integral `float64` counter.  For `|windowSize| < 2^49`
the binary64 rounding of `windowSize*12/100` never crosses an integer, so
the comparison coincides with the exact rational one, which is
`100*count > 12*windowSize`. -/
def contrastCountExceeds (count : Nat) (windowSize : Int) : Bool :=
  decide (100 * (count : Int) > (highContrastPercent : Int) * windowSize)

/-- Go `pointInScanCorner` (identical in both source variants). -/
def pointInScanCorner (rect : Rect) (dir : Pt) : Pt :=
  if dir.x < 0 || dir.y < 0 then ⟨rect.maxX - 1, rect.maxY - 1⟩
  else ⟨rect.minX, rect.minY⟩

/-- Go `scanLineForNonWhitespace` (identical in both source variants): walk
the line from `pt` in direction `scan`; report whether any pixel has
luminance at most `grayDarknessLimit`. -/
def scanLineForNonWhitespace (img : Raster) : Pt → Pt → Nat → Except Fault Bool
  | _, _, 0 => .error .outOfFuel
  | pt, scan, fuel + 1 =>
    if pt.inRect img.bounds then
      if img.At pt.x pt.y ≤ grayDarknessLimit then .ok true
      else scanLineForNonWhitespace img (pt.add scan) scan fuel
    else .ok false

/-- Loop of Go `findBorder` (identical in both source variants). -/
def findBorderLoop (img : Raster) (dir scan : Pt) : Pt → Nat → Except Fault Pt
  | _, 0 => .error .outOfFuel
  | dpt, fuel + 1 =>
    match scanLineForNonWhitespace img dpt scan (scanFuel img.bounds) with
    | .error f => .error f
    | .ok true => .ok dpt
    | .ok false =>
      let dpt2 := dpt.add dir
      if dpt2.inRect img.bounds then findBorderLoop img dir scan dpt2 fuel
      else .ok (pointInScanCorner img.bounds dir)

/-- Go `findBorder` (identical in both source variants). -/
def findBorder (img : Raster) (dir : Pt) : Except Fault Pt :=
  match findBorderLoop img dir ⟨dir.y, dir.x⟩ (pointInScanCorner img.bounds dir)
      (scanFuel img.bounds) with
  | .error f => .error f
  | .ok dpt => .ok (if dir.x < 0 || dir.y < 0 then dpt.sub dir else dpt)

/-- Go `Bounds` (identical in both source variants); the nested matches
model the sequential statements, each of which can panic. -/
def Bounds (img : Raster) : Except Fault Rect :=
  match findBorder img ⟨1, 0⟩ with
  | .error f => .error f
  | .ok left =>
    match findBorder img ⟨-1, 0⟩ with
    | .error f => .error f
    | .ok right =>
      match findBorder img ⟨0, 1⟩ with
      | .error f => .error f
      | .ok top =>
        match findBorder img ⟨0, -1⟩ with
        | .error f => .error f
        | .ok bottom => .ok (mkRect left.x top.y right.x bottom.y)

/-- Failure value of Go `Crop`: `fmt.Errorf("image does not support cropping")`. -/
inductive CropError where
  | unsupported
deriving DecidableEq

/-- Result of a successful Go `Crop`: the sub-view `simg.SubImage(bounds)`
of the raster restricted to the rectangle (the core copies no pixels). -/
inductive CropResult where
  | subView (img : Raster) (r : Rect)

/-- Go `Crop` (identical in both source variants): type-assert the
`SubImage` capability; fail when absent, otherwise return the sub-view. -/
def Crop (img : Raster) (bounds : Rect) : Except CropError CropResult :=
  if !img.hasSubImage then .error .unsupported
  else .ok (.subView img bounds)

namespace Extended

/-- The window-flush block at the top of the extended-profile hashing loop
body (inlined in the source): when the window boundary `i % windowSize ==
windowSize-1` is reached, classify the finished window into the base hash
and the contrast hash and reset the accumulators.  Returns the updated
`(partialSum, lows, highs, avgHash, highContrastHash)`. -/
def flushWindow (windowSize i : Int) (partialSum lows highs avgHash highContrastHash : Nat) :
    Except Fault (Nat × Nat × Nat × Nat × Nat) :=
  if Int.tmod i windowSize = windowSize - 1 then
    if partialSum > uint32Of windowSize * grayDarknessLimit % 4294967296 then
      match setBit32 avgHash (Int.tdiv i windowSize) with
      | .error f => .error f
      | .ok avg2 =>
        if contrastCountExceeds lows windowSize then
          match setBit32 highContrastHash (Int.tdiv i windowSize) with
          | .error f => .error f
          | .ok hc2 => .ok (0, 0, 0, avg2, hc2)
        else .ok (0, 0, 0, avg2, highContrastHash)
    else
      if contrastCountExceeds highs windowSize then
        match setBit32 highContrastHash (Int.tdiv i windowSize) with
        | .error f => .error f
        | .ok hc2 => .ok (0, 0, 0, avgHash, hc2)
      else .ok (0, 0, 0, avgHash, highContrastHash)
  else .ok (partialSum, lows, highs, avgHash, highContrastHash)

/-- Loop of the extended-profile `lineAverageHash`.  State: the current
walk position `spt`, the Go locals `i`, `partialSum` (uint32), `lows`,
`highs` (integral float64 counters), and the two hashes being built.  The
`i % windowSize` in the source panics when `windowSize` is zero. -/
def lineAverageHashLoop (img : Raster) (windowSize : Int) (scan : Pt)
    (spt : Pt) (i : Int) (partialSum lows highs avgHash highContrastHash : Nat) :
    Nat → Except Fault (Nat × Nat)
  | 0 => .error .outOfFuel
  | fuel + 1 =>
    if spt.inRect img.bounds then
      if windowSize = 0 then .error .divideByZero
      else
        let g := img.At spt.x spt.y
        match flushWindow windowSize i partialSum lows highs avgHash highContrastHash with
        | .error f => .error f
        | .ok (ps, lo, hi, avg2, hc2) =>
          lineAverageHashLoop img windowSize scan (spt.add scan) (i + 1)
            ((ps + g) % 4294967296)
            (lo + if g < blackHighContrastThreshold then 1 else 0)
            (hi + if g > whiteHighContrastThreshold then 1 else 0)
            avg2 hc2 fuel
    else .ok (avgHash, highContrastHash)

/-- Extended-profile `lineAverageHash`: hash one line starting at `pt`,
walking in direction `scan`; `length` is the Max coordinate of the raster
in the swept axis (not the pixel count of the line). -/
def lineAverageHash (img : Raster) (pt scan : Pt) : Except Fault (Nat × Nat) :=
  let length : Int := if scan.x ≠ 0 then img.bounds.maxX else img.bounds.maxY
  let windowSize : Int := Int.tdiv length 32
  lineAverageHashLoop img windowSize scan pt 0 0 0 0 0 0 (scanFuel img.bounds)

/-- Go `hashesMatch` (extended profile): a saturated previous base hash
uses the strict 1-bit threshold, otherwise the 3-bit threshold applies. -/
def hashesMatch (prevAvg prevHighContrast avgHash highContrastHash : Nat) : Bool :=
  if (prevAvg ^^^ 4294967295 = 0 ∨ prevAvg ^^^ 0 = 0) ∧
      popCount (avgHash ^^^ prevAvg) + popCount (highContrastHash ^^^ prevHighContrast) ≥
        minDistinctBitsBetweenLines then
    false
  else if popCount (avgHash ^^^ prevAvg) + popCount (highContrastHash ^^^ prevHighContrast) ≥
      maxDistinctBitsBetweenLines then
    false
  else
    true

/-- Loop of the extended-profile `findBorderUsingAvgHash`. -/
def findBorderUsingAvgHashLoop (img : Raster) (dir scan : Pt)
    (prevAvg prevHighContrast : Nat) (dpt : Pt) : Nat → Except Fault Pt
  | 0 => .error .outOfFuel
  | fuel + 1 =>
    match lineAverageHash img dpt scan with
    | .error f => .error f
    | .ok (avgHash, highContrastHash) =>
      if hashesMatch prevAvg prevHighContrast avgHash highContrastHash then
        let dpt2 := dpt.add dir
        if dpt2.inRect img.bounds then
          findBorderUsingAvgHashLoop img dir scan avgHash highContrastHash dpt2 fuel
        else .ok (pointInScanCorner img.bounds dir)
      else .ok dpt

/-- Extended-profile `findBorderUsingAvgHash`. -/
def findBorderUsingAvgHash (img : Raster) (dir : Pt) : Except Fault Pt :=
  match lineAverageHash img (pointInScanCorner img.bounds dir) ⟨dir.y, dir.x⟩ with
  | .error f => .error f
  | .ok (prevAvg, prevHighContrast) =>
    match findBorderUsingAvgHashLoop img dir ⟨dir.y, dir.x⟩ prevAvg prevHighContrast
        ((pointInScanCorner img.bounds dir).add dir) (scanFuel img.bounds) with
    | .error f => .error f
    | .ok res => .ok (if dir.x < 0 || dir.y < 0 then res.sub dir else res)

/-- Extended-profile `BoundsHash`. -/
def BoundsHash (img : Raster) : Except Fault Rect :=
  match findBorderUsingAvgHash img ⟨1, 0⟩ with
  | .error f => .error f
  | .ok left =>
    match findBorderUsingAvgHash img ⟨-1, 0⟩ with
    | .error f => .error f
    | .ok right =>
      match findBorderUsingAvgHash img ⟨0, 1⟩ with
      | .error f => .error f
      | .ok top =>
        match findBorderUsingAvgHash img ⟨0, -1⟩ with
        | .error f => .error f
        | .ok bottom => .ok (mkRect left.x top.y right.x bottom.y)

/-- Extended-profile `Auto`: hash-based bounds, then crop; the outer
`Except Fault` carries panics of the bounds computation, the inner value is
exactly what the Go function returns. -/
def Auto (img : Raster) : Except Fault (Except CropError CropResult) :=
  match BoundsHash img with
  | .error f => .error f
  | .ok bounds =>
    match Crop img bounds with
    | .error err => .ok (.error err)
    | .ok cropped => .ok (.ok cropped)

end Extended

namespace Simplified

/-- The window-flush block of the simplified-profile hashing loop body
(inlined in the source): on a window boundary, classify the finished
window into the single 64-bit hash and reset the accumulator.  Returns the
updated `(partialSum, hash)`. -/
def flushWindow (windowSize i : Int) (partialSum hash : Nat) :
    Except Fault (Nat × Nat) :=
  if Int.tmod i windowSize = windowSize - 1 then
    if partialSum > uint32Of windowSize * grayDarknessLimit % 4294967296 then
      match setBit64 hash (Int.tdiv i windowSize) with
      | .error f => .error f
      | .ok h2 => .ok (0, h2)
    else .ok (0, hash)
  else .ok (partialSum, hash)

/-- Loop of the simplified-profile `lineAverageHash`: a single 64-bit hash,
no contrast tracking.  The `i % windowSize` in the source panics when
`windowSize` is zero. -/
def lineAverageHashLoop (img : Raster) (windowSize : Int) (scan : Pt)
    (spt : Pt) (i : Int) (partialSum hash : Nat) : Nat → Except Fault Nat
  | 0 => .error .outOfFuel
  | fuel + 1 =>
    if spt.inRect img.bounds then
      if windowSize = 0 then .error .divideByZero
      else
        let g := img.At spt.x spt.y
        match flushWindow windowSize i partialSum hash with
        | .error f => .error f
        | .ok (ps, h2) =>
          lineAverageHashLoop img windowSize scan (spt.add scan) (i + 1)
            ((ps + g) % 4294967296) h2 fuel
    else .ok hash

/-- Simplified-profile `lineAverageHash`.  The argument is the result of
the interface assertion `img.(image.RGBA64Image)` in the caller: when the
assertion failed the value is the nil interface, and the very first
statement that touches it (`img.Bounds()`) dereferences nil. -/
def lineAverageHash (img : Option Raster) (pt scan : Pt) : Except Fault Nat :=
  match img with
  | none => .error .nilPointer
  | some img =>
    let length : Int := if scan.x ≠ 0 then img.bounds.maxX else img.bounds.maxY
    let windowSize : Int := Int.tdiv length 64
    lineAverageHashLoop img windowSize scan pt 0 0 0 (scanFuel img.bounds)

/-- Comparator of the simplified profile, inlined in the source at the top
of the scan loop: `bits.OnesCount64(hash^prev) >= minDistinctBitsBetweenLines`. -/
def linesDiffer (prev hash : Nat) : Bool :=
  decide (popCount (hash ^^^ prev) ≥ minDistinctBitsBetweenLines)

/-- Loop of the simplified-profile `findBorderUsingAvgHash`.  `rgbimg` is
the (possibly failed) result of the `image.RGBA64Image` assertion. -/
def findBorderUsingAvgHashLoop (img : Raster) (rgbimg : Option Raster)
    (dir scan : Pt) (prev : Nat) (dpt : Pt) : Nat → Except Fault Pt
  | 0 => .error .outOfFuel
  | fuel + 1 =>
    match lineAverageHash rgbimg dpt scan with
    | .error f => .error f
    | .ok hash =>
      if linesDiffer prev hash then .ok dpt
      else
        let dpt2 := dpt.add dir
        if dpt2.inRect img.bounds then
          findBorderUsingAvgHashLoop img rgbimg dir scan hash dpt2 fuel
        else .ok (pointInScanCorner img.bounds dir)

/-- Simplified-profile `findBorderUsingAvgHash`: the bounds and the corner
come from the outer `img`, the hashes from the asserted `rgbimg`. -/
def findBorderUsingAvgHash (img : Raster) (dir : Pt) : Except Fault Pt :=
  match lineAverageHash (if img.isRGBA64Image then some img else none)
      (pointInScanCorner img.bounds dir) ⟨dir.y, dir.x⟩ with
  | .error f => .error f
  | .ok prev =>
    match findBorderUsingAvgHashLoop img (if img.isRGBA64Image then some img else none)
        dir ⟨dir.y, dir.x⟩ prev
        ((pointInScanCorner img.bounds dir).add dir) (scanFuel img.bounds) with
    | .error f => .error f
    | .ok res => .ok (if dir.x < 0 || dir.y < 0 then res.sub dir else res)

/-- Simplified-profile `BoundsHash`. -/
def BoundsHash (img : Raster) : Except Fault Rect :=
  match findBorderUsingAvgHash img ⟨1, 0⟩ with
  | .error f => .error f
  | .ok left =>
    match findBorderUsingAvgHash img ⟨-1, 0⟩ with
    | .error f => .error f
    | .ok right =>
      match findBorderUsingAvgHash img ⟨0, 1⟩ with
      | .error f => .error f
      | .ok top =>
        match findBorderUsingAvgHash img ⟨0, -1⟩ with
        | .error f => .error f
        | .ok bottom => .ok (mkRect left.x top.y right.x bottom.y)

/-- Simplified-profile `Auto`. -/
def Auto (img : Raster) : Except Fault (Except CropError CropResult) :=
  match BoundsHash img with
  | .error f => .error f
  | .ok bounds =>
    match Crop img bounds with
    | .error err => .ok (.error err)
    | .ok cropped => .ok (.ok cropped)

end Simplified

/-! Concrete rasters used to evaluate the embedding. -/

/-- A constant all-white pixel field. -/
def whiteAt : Int → Int → Nat := fun _ _ => 255

/-- A 16x16 white raster: its extent 16 is positive but below the extended
hash width 32. -/
def img16 : Raster := ⟨⟨0, 0, 16, 16⟩, whiteAt, true, true⟩

/-- A 48x48 white raster: its extent 48 is positive but below the
simplified hash width 64. -/
def img48 : Raster := ⟨⟨0, 0, 48, 48⟩, whiteAt, true, true⟩

/-- A 32x4 raster, white except for the all-black row y = 2. -/
def imgC2 : Raster := ⟨⟨0, 0, 32, 4⟩, fun _ y => if y = 2 then 0 else 255, true, true⟩

/-- A fully uniform white 32x32 raster. -/
def white32 : Raster := ⟨⟨0, 0, 32, 32⟩, whiteAt, true, true⟩

/-- A fully uniform black 32x32 raster. -/
def black32 : Raster := ⟨⟨0, 0, 32, 32⟩, fun _ _ => 0, true, true⟩

/-- A 4x1 raster, white except for the black pixel at x = 2. -/
def imgC7 : Raster := ⟨⟨0, 0, 4, 1⟩, fun x _ => if x = 2 then 0 else 255, true, true⟩

/-- A 64x64 white raster whose dynamic type does not implement
`image.RGBA64Image`. -/
def imgC8 : Raster := ⟨⟨0, 0, 64, 64⟩, whiteAt, false, true⟩

/-- A white raster with bounds `(1,0)-(40,2)`: the minimum of the swept
x-axis is positive, as for a sub-image view keeping parent coordinates. -/
def imgC10 : Raster := ⟨⟨1, 0, 40, 2⟩, whiteAt, true, true⟩

/-- A 4x4 white raster whose type supports `SubImage`. -/
def imgPlain : Raster := ⟨⟨0, 0, 4, 4⟩, whiteAt, true, true⟩

/-- A 4x4 white raster whose type does not support `SubImage`. -/
def imgNoSub : Raster := ⟨⟨0, 0, 4, 4⟩, whiteAt, true, false⟩

/-! Measures and direction predicates used to reason about the loops. -/

/-- The four unit direction vectors the scans use. -/
def isUnitDir (v : Pt) : Prop :=
  v = ⟨1, 0⟩ ∨ v = ⟨-1, 0⟩ ∨ v = ⟨0, 1⟩ ∨ v = ⟨0, -1⟩

/-- How many positions a walk from `p` in unit direction `v` can still
visit before its moving coordinate leaves the bounds of `r`. -/
def stepsScan (r : Rect) (v p : Pt) : Nat :=
  if 0 < v.x then (r.maxX - p.x).toNat
  else if v.x < 0 then (p.x - r.minX + 1).toNat
  else if 0 < v.y then (r.maxY - p.y).toNat
  else (p.y - r.minY + 1).toNat

/-- The line visited after `j` inward steps of a directional scan that
starts at the corner belonging to `dir`. -/
def scanPathPoint (r : Rect) (dir : Pt) (j : Nat) : Pt :=
  (pointInScanCorner r dir).add (Pt.smul j dir)

/-! Basic lemmas about points, measures and fuel. -/

theorem popCount_zero : popCount 0 = 0 := rfl

theorem Pt.add_smul_succ (c d : Pt) (j : Nat) :
    (c.add (Pt.smul j d)).add d = c.add (Pt.smul (j + 1) d) := by
  simp only [Pt.add, Pt.smul, Pt.mk.injEq]
  push_cast
  constructor <;> ring

theorem Pt.add_smul_zero (c d : Pt) : c.add (Pt.smul 0 d) = c := by
  simp [Pt.add, Pt.smul]

theorem Pt.add_smul_one (c d : Pt) : c.add (Pt.smul 1 d) = c.add d := by
  simp [Pt.add, Pt.smul]

/-- Swapping the components of a unit direction yields a unit direction. -/
theorem isUnitDir_swap {v : Pt} (h : isUnitDir v) : isUnitDir ⟨v.y, v.x⟩ := by
  rcases h with h | h | h | h <;> subst h <;> simp [isUnitDir]

/-- Stepping a point that is inside the bounds consumes one step of the
measure. -/
theorem stepsScan_add_of_inRect {r : Rect} {v p : Pt} (hv : isUnitDir v)
    (hp : p.inRect r = true) : stepsScan r v (p.add v) + 1 = stepsScan r v p := by
  rcases hv with h | h | h | h <;> subst h <;>
    simp only [stepsScan, Pt.add, Pt.inRect, Bool.and_eq_true, decide_eq_true_eq] at hp ⊢ <;>
    norm_num <;> omega

/-- Stepping into the bounds consumes one step of the measure, whether or
not the point of departure was inside. -/
theorem stepsScan_add_of_inRect2 {r : Rect} {v p : Pt} (hv : isUnitDir v)
    (hp : (p.add v).inRect r = true) : stepsScan r v (p.add v) + 1 = stepsScan r v p := by
  rcases hv with h | h | h | h <;> subst h <;>
    simp only [stepsScan, Pt.add, Pt.inRect, Bool.and_eq_true, decide_eq_true_eq] at hp ⊢ <;>
    norm_num <;> omega

/-- Stepping along `dir` does not change the measure along the swapped
(perpendicular) direction. -/
theorem stepsScan_swap_add {r : Rect} {dir : Pt} (hd : isUnitDir dir) (p : Pt) :
    stepsScan r ⟨dir.y, dir.x⟩ (p.add dir) = stepsScan r ⟨dir.y, dir.x⟩ p := by
  rcases hd with h | h | h | h <;> subst h <;>
    simp [stepsScan, Pt.add]

/-- The starting corner of a directional scan is within one pass of the
raster in both the travel and the sweep direction. -/
theorem stepsScan_corner_le {r : Rect} {dir : Pt} (hd : isUnitDir dir) :
    stepsScan r dir (pointInScanCorner r dir) + 1 ≤ scanFuel r ∧
    stepsScan r ⟨dir.y, dir.x⟩ (pointInScanCorner r dir) + 1 ≤ scanFuel r := by
  rcases hd with h | h | h | h <;> subst h <;>
    simp [stepsScan, pointInScanCorner, scanFuel] <;> omega

/-! Totality and fuel lemmas: every loop exits within one inward pass. -/

/-- The whitespace scan of one line terminates within one pass and cannot
fail. -/
theorem scanLine_total (img : Raster) {scan : Pt} (hs : isUnitDir scan) :
    ∀ (fuel : Nat) (p : Pt), stepsScan img.bounds scan p + 1 ≤ fuel →
      ∃ b, scanLineForNonWhitespace img p scan fuel = .ok b := by
  intro fuel
  induction fuel with
  | zero => intro p hp; omega
  | succ f ih =>
    intro p hp
    simp only [scanLineForNonWhitespace]
    by_cases hin : p.inRect img.bounds = true
    · rw [if_pos hin]
      by_cases hdark : img.At p.x p.y ≤ grayDarknessLimit
      · rw [if_pos hdark]
        exact ⟨true, rfl⟩
      · rw [if_neg hdark]
        apply ih
        have := stepsScan_add_of_inRect hs hin
        omega
    · rw [if_neg hin]
      exact ⟨false, rfl⟩

/-- An error coming out of `setBit32` is a negative-shift panic. -/
theorem setBit32_error {n : Nat} {pos : Int} {f : Fault}
    (h : setBit32 n pos = .error f) : f = .negativeShift := by
  unfold setBit32 at h
  split_ifs at h <;> simp_all

/-- An error coming out of `setBit64` is a negative-shift panic. -/
theorem setBit64_error {n : Nat} {pos : Int} {f : Fault}
    (h : setBit64 n pos = .error f) : f = .negativeShift := by
  unfold setBit64 at h
  split_ifs at h <;> simp_all

/-- An error coming out of the extended window flush is a negative-shift
panic. -/
theorem Extended.flushWindow_error {w i : Int} {ps lo hi a hc : Nat} {f : Fault}
    (h : Extended.flushWindow w i ps lo hi a hc = .error f) : f = .negativeShift := by
  unfold Extended.flushWindow at h
  cases hsb : setBit32 a (Int.tdiv i w) <;>
    cases hsb2 : setBit32 hc (Int.tdiv i w) <;>
      rw [hsb, hsb2] at h <;>
        split_ifs at h <;>
          simp_all <;>
            first
              | exact setBit32_error hsb
              | exact setBit32_error hsb2

/-- An error coming out of the simplified window flush is a negative-shift
panic. -/
theorem Simplified.flushWindow64_error {w i : Int} {ps h64 : Nat} {f : Fault}
    (h : Simplified.flushWindow w i ps h64 = .error f) : f = .negativeShift := by
  unfold Simplified.flushWindow at h
  cases hsb : setBit64 h64 (Int.tdiv i w) <;>
    rw [hsb] at h <;>
      split_ifs at h <;>
        simp_all <;>
          exact setBit64_error hsb

/-- The extended hashing loop never runs out of its one-pass budget. -/
theorem Extended.hashLoop_not_fuel (img : Raster) (w : Int) {scan : Pt}
    (hs : isUnitDir scan) :
    ∀ (fuel : Nat) (spt : Pt) (i : Int) (ps lo hi a hc : Nat),
      stepsScan img.bounds scan spt + 1 ≤ fuel →
      Extended.lineAverageHashLoop img w scan spt i ps lo hi a hc fuel ≠
        .error .outOfFuel := by
  intro fuel
  induction fuel with
  | zero => intro spt i ps lo hi a hc h; omega
  | succ f ih =>
    intro spt i ps lo hi a hc h
    simp only [Extended.lineAverageHashLoop]
    by_cases hin : spt.inRect img.bounds = true
    · rw [if_pos hin]
      by_cases hw : w = 0
      · rw [if_pos hw]
        simp
      · rw [if_neg hw]
        cases hfl : Extended.flushWindow w i ps lo hi a hc with
        | error f2 =>
          have := Extended.flushWindow_error hfl
          simp [this]
        | ok t =>
          obtain ⟨ps2, lo2, hi2, a2, hc2⟩ := t
          apply ih
          have := stepsScan_add_of_inRect hs hin
          omega
    · rw [if_neg hin]
      simp

/-- The simplified hashing loop never runs out of its one-pass budget. -/
theorem Simplified.hashLoop64_not_fuel (img : Raster) (w : Int) {scan : Pt}
    (hs : isUnitDir scan) :
    ∀ (fuel : Nat) (spt : Pt) (i : Int) (ps h64 : Nat),
      stepsScan img.bounds scan spt + 1 ≤ fuel →
      Simplified.lineAverageHashLoop img w scan spt i ps h64 fuel ≠
        .error .outOfFuel := by
  intro fuel
  induction fuel with
  | zero => intro spt i ps h64 h; omega
  | succ f ih =>
    intro spt i ps h64 h
    simp only [Simplified.lineAverageHashLoop]
    by_cases hin : spt.inRect img.bounds = true
    · rw [if_pos hin]
      by_cases hw : w = 0
      · rw [if_pos hw]
        simp
      · rw [if_neg hw]
        cases hfl : Simplified.flushWindow w i ps h64 with
        | error f2 =>
          have := Simplified.flushWindow64_error hfl
          simp [this]
        | ok t =>
          obtain ⟨ps2, h2⟩ := t
          apply ih
          have := stepsScan_add_of_inRect hs hin
          omega
    · rw [if_neg hin]
      simp

/-- The extended line hasher never runs out of budget when started within
one sweep of the raster. -/
theorem Extended.lineAverageHash_not_fuel (img : Raster) {scan : Pt}
    (hs : isUnitDir scan) (pt : Pt)
    (hp : stepsScan img.bounds scan pt + 1 ≤ scanFuel img.bounds) :
    Extended.lineAverageHash img pt scan ≠ .error .outOfFuel := by
  unfold Extended.lineAverageHash
  exact Extended.hashLoop_not_fuel img _ hs _ pt 0 0 0 0 0 0 hp

/-- The simplified line hasher never runs out of budget when started
within one sweep of the raster (and on a nil receiver it panics before
looping). -/
theorem Simplified.lineAverageHash64_not_fuel (rgbimg : Option Raster) {scan : Pt}
    (hs : isUnitDir scan) (pt : Pt)
    (hp : ∀ img : Raster, rgbimg = some img →
      stepsScan img.bounds scan pt + 1 ≤ scanFuel img.bounds) :
    Simplified.lineAverageHash rgbimg pt scan ≠ .error .outOfFuel := by
  cases rgbimg with
  | none => simp [Simplified.lineAverageHash]
  | some img =>
    unfold Simplified.lineAverageHash
    exact Simplified.hashLoop64_not_fuel img _ hs _ pt 0 0 0 (hp img rfl)

/-- The naive border loop terminates within one pass with a definite
answer. -/
theorem findBorderLoop_total (img : Raster) {dir : Pt} (hd : isUnitDir dir) :
    ∀ (fuel : Nat) (dpt : Pt),
      stepsScan img.bounds dir dpt + 1 ≤ fuel →
      stepsScan img.bounds ⟨dir.y, dir.x⟩ dpt + 1 ≤ scanFuel img.bounds →
      ∃ p, findBorderLoop img dir ⟨dir.y, dir.x⟩ dpt fuel = .ok p := by
  intro fuel
  induction fuel with
  | zero => intro dpt h _; omega
  | succ f ih =>
    intro dpt h hswap
    obtain ⟨b, hb⟩ :=
      scanLine_total img (isUnitDir_swap hd) (scanFuel img.bounds) dpt hswap
    simp only [findBorderLoop]
    rw [hb]
    cases b
    · by_cases hin : (dpt.add dir).inRect img.bounds = true
      · simp only [hin, if_true]
        apply ih
        · have := stepsScan_add_of_inRect2 hd hin
          omega
        · rw [stepsScan_swap_add hd]
          exact hswap
      · simp only [hin, if_false]
        exact ⟨_, rfl⟩
    · exact ⟨dpt, rfl⟩

/-- The naive `findBorder` always yields a point: it cannot panic and it
finishes within one pass. -/
theorem findBorder_total (img : Raster) {dir : Pt} (hd : isUnitDir dir) :
    ∃ p, findBorder img dir = .ok p := by
  obtain ⟨hc1, hc2⟩ := @stepsScan_corner_le img.bounds _ hd
  obtain ⟨p, hp⟩ :=
    findBorderLoop_total img hd (scanFuel img.bounds)
      (pointInScanCorner img.bounds dir) hc1 hc2
  refine ⟨if dir.x < 0 || dir.y < 0 then p.sub dir else p, ?_⟩
  rw [findBorder, hp]

/-- The naive `Bounds` always yields a rectangle. -/
theorem Bounds_total (img : Raster) : ∃ r, Bounds img = .ok r := by
  obtain ⟨p1, h1⟩ := @findBorder_total img ⟨1, 0⟩ (by simp [isUnitDir])
  obtain ⟨p2, h2⟩ := @findBorder_total img ⟨-1, 0⟩ (by simp [isUnitDir])
  obtain ⟨p3, h3⟩ := @findBorder_total img ⟨0, 1⟩ (by simp [isUnitDir])
  obtain ⟨p4, h4⟩ := @findBorder_total img ⟨0, -1⟩ (by simp [isUnitDir])
  refine ⟨mkRect p1.x p3.y p2.x p4.y, ?_⟩
  rw [Bounds, h1, h2, h3, h4]

/-- One step inward from the starting corner also stays within the
one-pass budget. -/
theorem stepsScan_corner_add_le {r : Rect} {dir : Pt} (hd : isUnitDir dir) :
    stepsScan r dir ((pointInScanCorner r dir).add dir) + 1 ≤ scanFuel r := by
  rcases hd with h | h | h | h <;> subst h <;>
    simp [stepsScan, pointInScanCorner, scanFuel, Pt.add] <;> omega

/-- The extended hash-based border loop never runs out of its one-pass
budget. -/
theorem Extended.hashBorderLoop_not_fuel (img : Raster) {dir : Pt} (hd : isUnitDir dir) :
    ∀ (fuel : Nat) (dpt : Pt) (pa ph : Nat),
      stepsScan img.bounds dir dpt + 1 ≤ fuel →
      stepsScan img.bounds ⟨dir.y, dir.x⟩ dpt + 1 ≤ scanFuel img.bounds →
      Extended.findBorderUsingAvgHashLoop img dir ⟨dir.y, dir.x⟩ pa ph dpt fuel ≠
        .error .outOfFuel := by
  intro fuel
  induction fuel with
  | zero => intro dpt pa ph h _; omega
  | succ f ih =>
    intro dpt pa ph h hswap
    simp only [Extended.findBorderUsingAvgHashLoop]
    cases hh : Extended.lineAverageHash img dpt ⟨dir.y, dir.x⟩ with
    | error f2 =>
      have hne := Extended.lineAverageHash_not_fuel img (isUnitDir_swap hd) dpt hswap
      rw [hh] at hne
      simpa using hne
    | ok t =>
      obtain ⟨a, hc⟩ := t
      dsimp only
      by_cases hm : Extended.hashesMatch pa ph a hc = true
      · rw [if_pos hm]
        by_cases hin : (dpt.add dir).inRect img.bounds = true
        · simp only [hin, if_true]
          apply ih
          · have := stepsScan_add_of_inRect2 hd hin
            omega
          · rw [stepsScan_swap_add hd]
            exact hswap
        · simp only [hin, if_false]
          simp
      · rw [if_neg hm]
        simp

/-- The extended hash-based border scan never runs out of its budget. -/
theorem Extended.findBorderUsingAvgHash_not_fuel (img : Raster) {dir : Pt}
    (hd : isUnitDir dir) :
    Extended.findBorderUsingAvgHash img dir ≠ .error .outOfFuel := by
  obtain ⟨hc1, hc2⟩ := @stepsScan_corner_le img.bounds _ hd
  unfold Extended.findBorderUsingAvgHash
  cases hh : Extended.lineAverageHash img (pointInScanCorner img.bounds dir)
      ⟨dir.y, dir.x⟩ with
  | error f2 =>
    have hne := Extended.lineAverageHash_not_fuel img (isUnitDir_swap hd) _ hc2
    rw [hh] at hne
    simpa using hne
  | ok t =>
    obtain ⟨pa, ph⟩ := t
    dsimp only
    have hloopne :
        Extended.findBorderUsingAvgHashLoop img dir ⟨dir.y, dir.x⟩ pa ph
          ((pointInScanCorner img.bounds dir).add dir) (scanFuel img.bounds) ≠
          .error .outOfFuel := by
      apply Extended.hashBorderLoop_not_fuel img hd
      · exact stepsScan_corner_add_le hd
      · rw [stepsScan_swap_add hd]
        exact hc2
    cases hloop : Extended.findBorderUsingAvgHashLoop img dir ⟨dir.y, dir.x⟩ pa ph
        ((pointInScanCorner img.bounds dir).add dir) (scanFuel img.bounds) with
    | error f3 =>
      rw [hloop] at hloopne
      simpa using hloopne
    | ok res =>
      simp

/-- The extended `BoundsHash` never runs out of its budget. -/
theorem Extended.BoundsHash_not_fuel (img : Raster) :
    Extended.BoundsHash img ≠ .error .outOfFuel := by
  unfold Extended.BoundsHash
  cases h1 : Extended.findBorderUsingAvgHash img ⟨1, 0⟩ with
  | error f =>
    have := @Extended.findBorderUsingAvgHash_not_fuel img ⟨1, 0⟩
      (by simp [isUnitDir])
    rw [h1] at this
    simpa using this
  | ok p1 =>
    dsimp only
    cases h2 : Extended.findBorderUsingAvgHash img ⟨-1, 0⟩ with
    | error f =>
      have := @Extended.findBorderUsingAvgHash_not_fuel img ⟨-1, 0⟩
        (by simp [isUnitDir])
      rw [h2] at this
      simpa using this
    | ok p2 =>
      dsimp only
      cases h3 : Extended.findBorderUsingAvgHash img ⟨0, 1⟩ with
      | error f =>
        have := @Extended.findBorderUsingAvgHash_not_fuel img ⟨0, 1⟩
          (by simp [isUnitDir])
        rw [h3] at this
        simpa using this
      | ok p3 =>
        dsimp only
        cases h4 : Extended.findBorderUsingAvgHash img ⟨0, -1⟩ with
        | error f =>
          have := @Extended.findBorderUsingAvgHash_not_fuel img ⟨0, -1⟩
            (by simp [isUnitDir])
          rw [h4] at this
          simpa using this
        | ok p4 =>
          simp

/-- The simplified hash-based border loop never runs out of its one-pass
budget, for the receivers it is actually called with. -/
theorem Simplified.hashBorderLoop64_not_fuel (img : Raster) (rgbimg : Option Raster)
    (hrgb : rgbimg = none ∨ rgbimg = some img) {dir : Pt} (hd : isUnitDir dir) :
    ∀ (fuel : Nat) (dpt : Pt) (prev : Nat),
      stepsScan img.bounds dir dpt + 1 ≤ fuel →
      stepsScan img.bounds ⟨dir.y, dir.x⟩ dpt + 1 ≤ scanFuel img.bounds →
      Simplified.findBorderUsingAvgHashLoop img rgbimg dir ⟨dir.y, dir.x⟩ prev dpt fuel ≠
        .error .outOfFuel := by
  intro fuel
  induction fuel with
  | zero => intro dpt prev h _; omega
  | succ f ih =>
    intro dpt prev h hswap
    simp only [Simplified.findBorderUsingAvgHashLoop]
    cases hh : Simplified.lineAverageHash rgbimg dpt ⟨dir.y, dir.x⟩ with
    | error f2 =>
      have hne := Simplified.lineAverageHash64_not_fuel rgbimg (isUnitDir_swap hd) dpt
        (by
          intro img2 h2
          rcases hrgb with hn | hs2
          · cases hn.symm.trans h2
          · cases hs2.symm.trans h2
            exact hswap)
      rw [hh] at hne
      simpa using hne
    | ok hsh =>
      dsimp only
      by_cases hm : Simplified.linesDiffer prev hsh = true
      · rw [if_pos hm]
        simp
      · rw [if_neg hm]
        by_cases hin : (dpt.add dir).inRect img.bounds = true
        · simp only [hin, if_true]
          apply ih
          · have := stepsScan_add_of_inRect2 hd hin
            omega
          · rw [stepsScan_swap_add hd]
            exact hswap
        · simp only [hin, if_false]
          simp

/-- The simplified hash-based border scan never runs out of its budget. -/
theorem Simplified.findBorderUsingAvgHash64_not_fuel (img : Raster) {dir : Pt}
    (hd : isUnitDir dir) :
    Simplified.findBorderUsingAvgHash img dir ≠ .error .outOfFuel := by
  obtain ⟨hc1, hc2⟩ := @stepsScan_corner_le img.bounds _ hd
  unfold Simplified.findBorderUsingAvgHash
  have hrgb : (if img.isRGBA64Image then some img else none) = none ∨
      (if img.isRGBA64Image then some img else none) = some img := by
    by_cases hb : img.isRGBA64Image = true <;> simp [hb]
  cases hh : Simplified.lineAverageHash (if img.isRGBA64Image then some img else none)
      (pointInScanCorner img.bounds dir) ⟨dir.y, dir.x⟩ with
  | error f2 =>
    have hne := Simplified.lineAverageHash64_not_fuel _ (isUnitDir_swap hd)
      (pointInScanCorner img.bounds dir)
      (by
        intro img2 h2
        rcases hrgb with hn | hs2
        · cases hn.symm.trans h2
        · cases hs2.symm.trans h2
          exact hc2)
    rw [hh] at hne
    simpa using hne
  | ok prev =>
    dsimp only
    have hloopne :
        Simplified.findBorderUsingAvgHashLoop img
          (if img.isRGBA64Image then some img else none) dir ⟨dir.y, dir.x⟩ prev
          ((pointInScanCorner img.bounds dir).add dir) (scanFuel img.bounds) ≠
          .error .outOfFuel := by
      apply Simplified.hashBorderLoop64_not_fuel img _ hrgb hd
      · exact stepsScan_corner_add_le hd
      · rw [stepsScan_swap_add hd]
        exact hc2
    cases hloop : Simplified.findBorderUsingAvgHashLoop img
        (if img.isRGBA64Image then some img else none) dir ⟨dir.y, dir.x⟩ prev
        ((pointInScanCorner img.bounds dir).add dir) (scanFuel img.bounds) with
    | error f3 =>
      rw [hloop] at hloopne
      simpa using hloopne
    | ok res =>
      simp

/-- The simplified `BoundsHash` never runs out of its budget. -/
theorem Simplified.BoundsHash64_not_fuel (img : Raster) :
    Simplified.BoundsHash img ≠ .error .outOfFuel := by
  unfold Simplified.BoundsHash
  cases h1 : Simplified.findBorderUsingAvgHash img ⟨1, 0⟩ with
  | error f =>
    have := @Simplified.findBorderUsingAvgHash64_not_fuel img ⟨1, 0⟩
      (by simp [isUnitDir])
    rw [h1] at this
    simpa using this
  | ok p1 =>
    dsimp only
    cases h2 : Simplified.findBorderUsingAvgHash img ⟨-1, 0⟩ with
    | error f =>
      have := @Simplified.findBorderUsingAvgHash64_not_fuel img ⟨-1, 0⟩
        (by simp [isUnitDir])
      rw [h2] at this
      simpa using this
    | ok p2 =>
      dsimp only
      cases h3 : Simplified.findBorderUsingAvgHash img ⟨0, 1⟩ with
      | error f =>
        have := @Simplified.findBorderUsingAvgHash64_not_fuel img ⟨0, 1⟩
          (by simp [isUnitDir])
        rw [h3] at this
        simpa using this
      | ok p3 =>
        dsimp only
        cases h4 : Simplified.findBorderUsingAvgHash img ⟨0, -1⟩ with
        | error f =>
          have := @Simplified.findBorderUsingAvgHash64_not_fuel img ⟨0, -1⟩
            (by simp [isUnitDir])
          rw [h4] at this
          simpa using this
        | ok p4 =>
          simp

/-! Characterization of the break and exhaustion exits of the scans. -/

theorem scanPathPoint_zero (r : Rect) (dir : Pt) :
    scanPathPoint r dir 0 = pointInScanCorner r dir := by
  simp [scanPathPoint, Pt.add_smul_zero]

theorem scanPathPoint_one (r : Rect) (dir : Pt) :
    scanPathPoint r dir 1 = (pointInScanCorner r dir).add dir := by
  simp [scanPathPoint, Pt.add_smul_one]

theorem scanPathPoint_succ (r : Rect) (dir : Pt) (j : Nat) :
    (scanPathPoint r dir j).add dir = scanPathPoint r dir (j + 1) := by
  simp [scanPathPoint, Pt.add_smul_succ]

/-- A path point still inside the bounds keeps the step index below the
one-pass budget. -/
theorem scanPathPoint_le_scanFuel {r : Rect} {dir : Pt} (hd : isUnitDir dir) {m : Nat}
    (hin : (scanPathPoint r dir m).inRect r = true) : m + 2 ≤ scanFuel r := by
  rcases hd with h | h | h | h <;> subst h <;>
    simp only [scanPathPoint, pointInScanCorner, Pt.add, Pt.smul, Pt.inRect, scanFuel,
      Bool.and_eq_true, decide_eq_true_eq] at hin ⊢ <;>
    norm_num at hin <;> omega

/-- If the whitespace scanner rejects the first `m` lines of the pass and
accepts line `m`, the naive border loop stops exactly at line `m`. -/
theorem findBorderLoop_breaks (img : Raster) {dir : Pt} (hd : isUnitDir dir) (m : Nat)
    (hin : ∀ j : Nat, j ≤ m → (scanPathPoint img.bounds dir j).inRect img.bounds = true)
    (hfalse : ∀ j : Nat, j < m →
      scanLineForNonWhitespace img (scanPathPoint img.bounds dir j) ⟨dir.y, dir.x⟩
        (scanFuel img.bounds) = .ok false)
    (htrue : scanLineForNonWhitespace img (scanPathPoint img.bounds dir m) ⟨dir.y, dir.x⟩
      (scanFuel img.bounds) = .ok true) :
    findBorderLoop img dir ⟨dir.y, dir.x⟩ (pointInScanCorner img.bounds dir)
      (scanFuel img.bounds) = .ok (scanPathPoint img.bounds dir m) := by
  have haux : ∀ (fuel j : Nat), j ≤ m → m - j < fuel →
      findBorderLoop img dir ⟨dir.y, dir.x⟩ (scanPathPoint img.bounds dir j) fuel =
        .ok (scanPathPoint img.bounds dir m) := by
    intro fuel
    induction fuel with
    | zero => intro j hj hfu; omega
    | succ f ih =>
      intro j hj hfu
      simp only [findBorderLoop]
      by_cases hjm : j = m
      · subst hjm
        rw [htrue]
      · have hjlt : j < m := lt_of_le_of_ne hj hjm
        rw [hfalse j hjlt]
        dsimp only
        rw [scanPathPoint_succ, hin (j + 1) (by omega)]
        simp only [if_true]
        exact ih (j + 1) (by omega) (by omega)
  have hfu : m + 2 ≤ scanFuel img.bounds := scanPathPoint_le_scanFuel hd (hin m le_rfl)
  have := haux (scanFuel img.bounds) 0 (by omega) (by omega)
  rwa [scanPathPoint_zero] at this

/-- If the whitespace scanner rejects every line of the pass, the naive
border loop runs the raster off and resets to the starting corner. -/
theorem findBorderLoop_exhausts (img : Raster) {dir : Pt} (hd : isUnitDir dir)
    (hfalse : ∀ dpt : Pt,
      stepsScan img.bounds ⟨dir.y, dir.x⟩ dpt + 1 ≤ scanFuel img.bounds →
      scanLineForNonWhitespace img dpt ⟨dir.y, dir.x⟩ (scanFuel img.bounds) = .ok false) :
    findBorderLoop img dir ⟨dir.y, dir.x⟩ (pointInScanCorner img.bounds dir)
      (scanFuel img.bounds) = .ok (pointInScanCorner img.bounds dir) := by
  have haux : ∀ (fuel : Nat) (dpt : Pt),
      stepsScan img.bounds dir dpt + 1 ≤ fuel →
      stepsScan img.bounds ⟨dir.y, dir.x⟩ dpt + 1 ≤ scanFuel img.bounds →
      findBorderLoop img dir ⟨dir.y, dir.x⟩ dpt fuel =
        .ok (pointInScanCorner img.bounds dir) := by
    intro fuel
    induction fuel with
    | zero => intro dpt h _; omega
    | succ f ih =>
      intro dpt h hswap
      simp only [findBorderLoop]
      rw [hfalse dpt hswap]
      dsimp only
      by_cases hin : (dpt.add dir).inRect img.bounds = true
      · rw [hin]
        simp only [if_true]
        apply ih
        · have := stepsScan_add_of_inRect2 hd hin
          omega
        · rw [stepsScan_swap_add hd]
          exact hswap
      · simp [hin]
  obtain ⟨hc1, hc2⟩ := @stepsScan_corner_le img.bounds _ hd
  exact haux (scanFuel img.bounds) _ hc1 hc2

/-- Extended profile: if the first `m` consecutive line-hash comparisons
match and comparison `m` differs, the hash border loop stops exactly at
line `m`. -/
theorem Extended.hashBorderLoop_breaks (img : Raster) {dir : Pt} (hd : isUnitDir dir)
    (m : Nat) (hm : 1 ≤ m) (hshA hshC : Nat → Nat)
    (hin : ∀ j : Nat, j ≤ m → (scanPathPoint img.bounds dir j).inRect img.bounds = true)
    (hhash : ∀ j : Nat, j ≤ m →
      Extended.lineAverageHash img (scanPathPoint img.bounds dir j) ⟨dir.y, dir.x⟩ =
        .ok (hshA j, hshC j))
    (hmatch : ∀ j : Nat, 1 ≤ j → j < m →
      Extended.hashesMatch (hshA (j - 1)) (hshC (j - 1)) (hshA j) (hshC j) = true)
    (hbreak : Extended.hashesMatch (hshA (m - 1)) (hshC (m - 1)) (hshA m) (hshC m) = false) :
    Extended.findBorderUsingAvgHash img dir =
      .ok (if dir.x < 0 || dir.y < 0 then (scanPathPoint img.bounds dir m).sub dir
        else scanPathPoint img.bounds dir m) := by
  have haux : ∀ (fuel j : Nat), 1 ≤ j → j ≤ m → m - j < fuel →
      Extended.findBorderUsingAvgHashLoop img dir ⟨dir.y, dir.x⟩
        (hshA (j - 1)) (hshC (j - 1)) (scanPathPoint img.bounds dir j) fuel =
        .ok (scanPathPoint img.bounds dir m) := by
    intro fuel
    induction fuel with
    | zero => intro j h1 hj hfu; omega
    | succ f ih =>
      intro j h1 hj hfu
      simp only [Extended.findBorderUsingAvgHashLoop]
      rw [hhash j hj]
      dsimp only
      by_cases hjm : j = m
      · subst hjm
        rw [hbreak]
        simp
      · have hjlt : j < m := lt_of_le_of_ne hj hjm
        rw [hmatch j h1 hjlt]
        simp only [if_true]
        rw [scanPathPoint_succ, hin (j + 1) (by omega)]
        simp only [if_true]
        have := ih (j + 1) (by omega) (by omega) (by omega)
        simpa using this
  unfold Extended.findBorderUsingAvgHash
  have h0 := hhash 0 (by omega)
  rw [scanPathPoint_zero] at h0
  rw [h0]
  dsimp only
  have hfu : m + 2 ≤ scanFuel img.bounds := scanPathPoint_le_scanFuel hd (hin m le_rfl)
  have h1 := haux (scanFuel img.bounds) 1 le_rfl hm (by omega)
  rw [scanPathPoint_one] at h1
  simp only [Nat.sub_self] at h1
  rw [h1]

/-! Behaviour on uniform rasters. -/

/-- A line scan over a uniformly light raster rejects every line. -/
theorem scanLine_false_of_light (img : Raster) (c : Nat) (hc : ∀ x y, img.At x y = c)
    (hlight : grayDarknessLimit < c) {scan : Pt} (hs : isUnitDir scan) :
    ∀ (fuel : Nat) (p : Pt), stepsScan img.bounds scan p + 1 ≤ fuel →
      scanLineForNonWhitespace img p scan fuel = .ok false := by
  intro fuel
  induction fuel with
  | zero => intro p hp; omega
  | succ f ih =>
    intro p hp
    simp only [scanLineForNonWhitespace]
    by_cases hin : p.inRect img.bounds = true
    · rw [if_pos hin, hc p.x p.y, if_neg (by omega)]
      apply ih
      have := stepsScan_add_of_inRect hs hin
      omega
    · rw [if_neg hin]

/-- A line scan accepts immediately when its first pixel is dark. -/
theorem scanLine_true_of_dark (img : Raster) {p : Pt} (scan : Pt) (fuel : Nat)
    (h1 : 1 ≤ fuel) (hin : p.inRect img.bounds = true)
    (hdark : img.At p.x p.y ≤ grayDarknessLimit) :
    scanLineForNonWhitespace img p scan fuel = .ok true := by
  cases fuel with
  | zero => omega
  | succ f =>
    simp only [scanLineForNonWhitespace]
    rw [if_pos hin, if_pos hdark]

/-- Identical hash pairs always match (their distance is zero). -/
theorem Extended.hashesMatch_self (a hcc : Nat) :
    Extended.hashesMatch a hcc a hcc = true := by
  simp [Extended.hashesMatch, Nat.xor_self, popCount_zero, minDistinctBitsBetweenLines,
    maxDistinctBitsBetweenLines]

/-- A set-bit request with a nonnegative position succeeds. -/
theorem setBit32_ok {pos : Int} (hpos : 0 ≤ pos) (n : Nat) :
    ∃ m, setBit32 n pos = .ok m := by
  unfold setBit32
  split_ifs with h1 h2
  · omega
  · exact ⟨_, rfl⟩
  · exact ⟨_, rfl⟩

/-- A window flush with a positive window size and nonnegative counter
succeeds. -/
theorem Extended.flushWindow_ok {w i : Int} (hw : 1 ≤ w) (hi : 0 ≤ i)
    (ps lo hi2 a hcc : Nat) :
    ∃ t, Extended.flushWindow w i ps lo hi2 a hcc = .ok t := by
  have hpos : 0 ≤ Int.tdiv i w := Int.tdiv_nonneg hi (by omega)
  unfold Extended.flushWindow
  obtain ⟨m1, hm1⟩ := setBit32_ok hpos a
  obtain ⟨m2, hm2⟩ := setBit32_ok hpos hcc
  rw [hm1, hm2]
  split_ifs <;> exact ⟨_, rfl⟩

/-- The extended hashing loop returns a hash pair whenever the window size
is positive (the start counter being nonnegative). -/
theorem Extended.hashLoop_total (img : Raster) (w : Int) (hw : 1 ≤ w) {scan : Pt}
    (hs : isUnitDir scan) :
    ∀ (fuel : Nat) (spt : Pt) (i : Int), 0 ≤ i → ∀ ps lo hi a hcc : Nat,
      stepsScan img.bounds scan spt + 1 ≤ fuel →
      ∃ v, Extended.lineAverageHashLoop img w scan spt i ps lo hi a hcc fuel = .ok v := by
  intro fuel
  induction fuel with
  | zero => intro spt i hi ps lo hi2 a hcc h; omega
  | succ f ih =>
    intro spt i hi ps lo hi2 a hcc h
    simp only [Extended.lineAverageHashLoop]
    by_cases hin : spt.inRect img.bounds = true
    · rw [if_pos hin, if_neg (by omega : ¬w = 0)]
      obtain ⟨⟨ps2, lo2, hi3, a2, hc2⟩, hfl⟩ := Extended.flushWindow_ok hw hi ps lo hi2 a hcc
      rw [hfl]
      apply ih
      · omega
      · have := stepsScan_add_of_inRect hs hin
        omega
    · rw [if_neg hin]
      exact ⟨_, rfl⟩

/-- Lines of a uniform raster hash identically when they differ only in
the coordinate held fixed by a horizontal sweep. -/
theorem Extended.hashLoop_const_y (img : Raster) (c : Nat) (hc : ∀ x y, img.At x y = c)
    (w : Int) {scan : Pt} (hscan : scan.y = 0) {y1 y2 : Int}
    (hy1a : img.bounds.minY ≤ y1) (hy1b : y1 < img.bounds.maxY)
    (hy2a : img.bounds.minY ≤ y2) (hy2b : y2 < img.bounds.maxY) :
    ∀ (fuel : Nat) (x i : Int) (ps lo hi a hcc : Nat),
      Extended.lineAverageHashLoop img w scan ⟨x, y1⟩ i ps lo hi a hcc fuel =
        Extended.lineAverageHashLoop img w scan ⟨x, y2⟩ i ps lo hi a hcc fuel := by
  intro fuel
  induction fuel with
  | zero => intro x i ps lo hi a hcc; rfl
  | succ f ih =>
    intro x i ps lo hi a hcc
    simp only [Extended.lineAverageHashLoop]
    have hin : (⟨x, y1⟩ : Pt).inRect img.bounds = (⟨x, y2⟩ : Pt).inRect img.bounds := by
      simp [Pt.inRect, hy1a, hy1b, hy2a, hy2b]
    rw [hin]
    by_cases hin2 : (⟨x, y2⟩ : Pt).inRect img.bounds = true
    · rw [if_pos hin2, if_pos hin2]
      by_cases hw : w = 0
      · rw [if_pos hw, if_pos hw]
      · rw [if_neg hw, if_neg hw]
        dsimp only
        rw [hc x y1, hc x y2]
        cases hfl : Extended.flushWindow w i ps lo hi a hcc with
        | error f2 => rfl
        | ok t =>
          obtain ⟨ps2, lo2, hi2, a2, hc2⟩ := t
          dsimp only [Pt.add]
          rw [hscan]
          simpa using ih (x + scan.x) (i + 1) ((ps2 + c) % 4294967296)
            (lo2 + if c < blackHighContrastThreshold then 1 else 0)
            (hi2 + if c > whiteHighContrastThreshold then 1 else 0) a2 hc2
    · rw [if_neg hin2, if_neg hin2]

/-- Lines of a uniform raster hash identically when they differ only in
the coordinate held fixed by a vertical sweep. -/
theorem Extended.hashLoop_const_x (img : Raster) (c : Nat) (hc : ∀ x y, img.At x y = c)
    (w : Int) {scan : Pt} (hscan : scan.x = 0) {x1 x2 : Int}
    (hx1a : img.bounds.minX ≤ x1) (hx1b : x1 < img.bounds.maxX)
    (hx2a : img.bounds.minX ≤ x2) (hx2b : x2 < img.bounds.maxX) :
    ∀ (fuel : Nat) (y i : Int) (ps lo hi a hcc : Nat),
      Extended.lineAverageHashLoop img w scan ⟨x1, y⟩ i ps lo hi a hcc fuel =
        Extended.lineAverageHashLoop img w scan ⟨x2, y⟩ i ps lo hi a hcc fuel := by
  intro fuel
  induction fuel with
  | zero => intro y i ps lo hi a hcc; rfl
  | succ f ih =>
    intro y i ps lo hi a hcc
    simp only [Extended.lineAverageHashLoop]
    have hin : (⟨x1, y⟩ : Pt).inRect img.bounds = (⟨x2, y⟩ : Pt).inRect img.bounds := by
      simp [Pt.inRect, hx1a, hx1b, hx2a, hx2b]
    rw [hin]
    by_cases hin2 : (⟨x2, y⟩ : Pt).inRect img.bounds = true
    · rw [if_pos hin2, if_pos hin2]
      by_cases hw : w = 0
      · rw [if_pos hw, if_pos hw]
      · rw [if_neg hw, if_neg hw]
        dsimp only
        rw [hc x1 y, hc x2 y]
        cases hfl : Extended.flushWindow w i ps lo hi a hcc with
        | error f2 => rfl
        | ok t =>
          obtain ⟨ps2, lo2, hi2, a2, hc2⟩ := t
          dsimp only [Pt.add]
          rw [hscan]
          simpa using ih (y + scan.y) (i + 1) ((ps2 + c) % 4294967296)
            (lo2 + if c < blackHighContrastThreshold then 1 else 0)
            (hi2 + if c > whiteHighContrastThreshold then 1 else 0) a2 hc2
    · rw [if_neg hin2, if_neg hin2]

/-- The starting corner of a nonempty raster is inside the bounds. -/
theorem corner_inRect {r : Rect} {dir : Pt} (hd : isUnitDir dir)
    (hx : r.minX < r.maxX) (hy : r.minY < r.maxY) :
    (pointInScanCorner r dir).inRect r = true := by
  rcases hd with h | h | h | h <;> subst h <;>
    simp [pointInScanCorner, Pt.inRect] <;> omega

/-- Extended profile: when every line along the pass hashes to the same
pair, the hash border loop exhausts the raster and resets to the starting
corner. -/
theorem Extended.hashBorder_exhausts (img : Raster) {dir : Pt} (hd : isUnitDir dir)
    (pa ph : Nat)
    (hpath : ∀ j : Nat, (scanPathPoint img.bounds dir j).inRect img.bounds = true →
      Extended.lineAverageHash img (scanPathPoint img.bounds dir j) ⟨dir.y, dir.x⟩ =
        .ok (pa, ph))
    (hc0 : (pointInScanCorner img.bounds dir).inRect img.bounds = true)
    (h1in : (scanPathPoint img.bounds dir 1).inRect img.bounds = true) :
    Extended.findBorderUsingAvgHash img dir =
      .ok (if dir.x < 0 || dir.y < 0 then (pointInScanCorner img.bounds dir).sub dir
        else pointInScanCorner img.bounds dir) := by
  have haux : ∀ (fuel j : Nat), 1 ≤ j →
      (scanPathPoint img.bounds dir j).inRect img.bounds = true →
      stepsScan img.bounds dir (scanPathPoint img.bounds dir j) + 1 ≤ fuel →
      Extended.findBorderUsingAvgHashLoop img dir ⟨dir.y, dir.x⟩ pa ph
        (scanPathPoint img.bounds dir j) fuel =
        .ok (pointInScanCorner img.bounds dir) := by
    intro fuel
    induction fuel with
    | zero => intro j h1 hjin h; omega
    | succ f ih =>
      intro j h1 hjin h
      simp only [Extended.findBorderUsingAvgHashLoop]
      rw [hpath j hjin]
      dsimp only
      rw [Extended.hashesMatch_self]
      simp only [if_true]
      rw [scanPathPoint_succ]
      by_cases hin2 : (scanPathPoint img.bounds dir (j + 1)).inRect img.bounds = true
      · rw [hin2]
        simp only [if_true]
        apply ih (j + 1) (by omega) hin2
        have h2 := @stepsScan_add_of_inRect2 img.bounds dir (scanPathPoint img.bounds dir j) hd
          (by rw [scanPathPoint_succ]; exact hin2)
        rw [scanPathPoint_succ] at h2
        omega
      · simp [hin2]
  unfold Extended.findBorderUsingAvgHash
  have h0 := hpath 0 (by rw [scanPathPoint_zero]; exact hc0)
  rw [scanPathPoint_zero] at h0
  rw [h0]
  dsimp only
  have hsteps : stepsScan img.bounds dir (scanPathPoint img.bounds dir 1) + 1 ≤
      scanFuel img.bounds := by
    rw [scanPathPoint_one]
    exact stepsScan_corner_add_le hd
  have h1 := haux (scanFuel img.bounds) 1 le_rfl h1in hsteps
  rw [scanPathPoint_one] at h1
  rw [h1]

/-- The extended line hasher of a nonempty raster with window size at
least one returns a hash pair. -/
theorem Extended.lineAverageHash_total (img : Raster) (pt : Pt) {scan : Pt}
    (hs : isUnitDir scan)
    (hw : 1 ≤ Int.tdiv (if scan.x ≠ 0 then img.bounds.maxX else img.bounds.maxY) 32)
    (hp : stepsScan img.bounds scan pt + 1 ≤ scanFuel img.bounds) :
    ∃ v, Extended.lineAverageHash img pt scan = .ok v := by
  unfold Extended.lineAverageHash
  exact Extended.hashLoop_total img _ hw hs (scanFuel img.bounds) pt 0 le_rfl 0 0 0 0 0 hp

theorem one_le_tdiv_32 {L : Int} (hL : 32 ≤ L) : 1 ≤ Int.tdiv L 32 := by
  rw [Int.tdiv_eq_ediv (by omega) (by omega)]
  rw [Int.le_ediv_iff_mul_le (by omega)]
  omega

/-- Uniform rasters: the extended line hash does not depend on the fixed
x-coordinate of a vertical sweep. -/
theorem Extended.lineAverageHash_const_x (img : Raster) (c : Nat)
    (hc : ∀ x y, img.At x y = c) {scan : Pt} (hscan : scan.x = 0) {x1 x2 : Int}
    (hx1a : img.bounds.minX ≤ x1) (hx1b : x1 < img.bounds.maxX)
    (hx2a : img.bounds.minX ≤ x2) (hx2b : x2 < img.bounds.maxX) (y : Int) :
    Extended.lineAverageHash img ⟨x1, y⟩ scan = Extended.lineAverageHash img ⟨x2, y⟩ scan := by
  unfold Extended.lineAverageHash
  exact Extended.hashLoop_const_x img c hc _ hscan hx1a hx1b hx2a hx2b _ y 0 0 0 0 0 0

/-- Uniform rasters: the extended line hash does not depend on the fixed
y-coordinate of a horizontal sweep. -/
theorem Extended.lineAverageHash_const_y (img : Raster) (c : Nat)
    (hc : ∀ x y, img.At x y = c) {scan : Pt} (hscan : scan.y = 0) {y1 y2 : Int}
    (hy1a : img.bounds.minY ≤ y1) (hy1b : y1 < img.bounds.maxY)
    (hy2a : img.bounds.minY ≤ y2) (hy2b : y2 < img.bounds.maxY) (x : Int) :
    Extended.lineAverageHash img ⟨x, y1⟩ scan = Extended.lineAverageHash img ⟨x, y2⟩ scan := by
  unfold Extended.lineAverageHash
  exact Extended.hashLoop_const_y img c hc _ hscan hy1a hy1b hy2a hy2b _ x 0 0 0 0 0 0

/-- Uniform rasters: every line on a scan path hashes like the starting
corner line. -/
theorem Extended.lineAverageHash_path_const (img : Raster) (c : Nat)
    (hc : ∀ x y, img.At x y = c) {dir : Pt} (hd : isUnitDir dir)
    (hx : img.bounds.minX < img.bounds.maxX) (hy : img.bounds.minY < img.bounds.maxY)
    (j : Nat) (hjin : (scanPathPoint img.bounds dir j).inRect img.bounds = true) :
    Extended.lineAverageHash img (scanPathPoint img.bounds dir j) ⟨dir.y, dir.x⟩ =
      Extended.lineAverageHash img (pointInScanCorner img.bounds dir) ⟨dir.y, dir.x⟩ := by
  rcases hd with h | h | h | h <;> subst h <;>
    simp only [scanPathPoint, pointInScanCorner, Pt.add, Pt.smul, Pt.inRect,
      Bool.and_eq_true, decide_eq_true_eq] at hjin ⊢ <;>
    norm_num at hjin ⊢
  · exact Extended.lineAverageHash_const_x img c hc (by norm_num)
      (by omega) (by omega) (by omega) (by omega) _
  · exact Extended.lineAverageHash_const_x img c hc (by norm_num)
      (by omega) (by omega) (by omega) (by omega) _
  · exact Extended.lineAverageHash_const_y img c hc (by norm_num)
      (by omega) (by omega) (by omega) (by omega) _
  · exact Extended.lineAverageHash_const_y img c hc (by norm_num)
      (by omega) (by omega) (by omega) (by omega) _

/-- Uniform rasters: the naive border scan of every direction stops at its
own starting corner (immediately for dark colors, after exhausting the
raster for light ones), yielding no crop on that side. -/
theorem findBorder_uniform (img : Raster) (c : Nat) (hc : ∀ x y, img.At x y = c)
    (hx : img.bounds.minX < img.bounds.maxX) (hy : img.bounds.minY < img.bounds.maxY)
    {dir : Pt} (hd : isUnitDir dir) :
    findBorder img dir =
      .ok (if dir.x < 0 || dir.y < 0 then (pointInScanCorner img.bounds dir).sub dir
        else pointInScanCorner img.bounds dir) := by
  by_cases hdark : c ≤ grayDarknessLimit
  · have htrue : scanLineForNonWhitespace img (scanPathPoint img.bounds dir 0)
        ⟨dir.y, dir.x⟩ (scanFuel img.bounds) = .ok true := by
      rw [scanPathPoint_zero]
      apply scanLine_true_of_dark img _ _ (by simp only [scanFuel]; omega)
        (corner_inRect hd hx hy)
      rw [hc]
      exact hdark
    have hloop := findBorderLoop_breaks img hd 0
      (by
        intro j hj
        cases Nat.le_zero.mp hj
        rw [scanPathPoint_zero]
        exact corner_inRect hd hx hy)
      (by intro j hj; omega)
      htrue
    rw [findBorder, hloop, scanPathPoint_zero]
  · have hloop := findBorderLoop_exhausts img hd
      (by
        intro dpt hdpt
        exact scanLine_false_of_light img c hc (by omega) (isUnitDir_swap hd) _ dpt hdpt)
    rw [findBorder, hloop]

/-- Uniform rasters: the extended hash border scan of every direction
exhausts the raster and stops at its own starting corner, yielding no crop
on that side. -/
theorem Extended.findBorderUsingAvgHash_uniform (img : Raster) (c : Nat)
    (hc : ∀ x y, img.At x y = c) (W H : Int) (hb : img.bounds = ⟨0, 0, W, H⟩)
    (hW : 32 ≤ W) (hH : 32 ≤ H) {dir : Pt} (hd : isUnitDir dir) :
    Extended.findBorderUsingAvgHash img dir =
      .ok (if dir.x < 0 || dir.y < 0 then (pointInScanCorner img.bounds dir).sub dir
        else pointInScanCorner img.bounds dir) := by
  have hx : img.bounds.minX < img.bounds.maxX := by rw [hb]; dsimp only; omega
  have hy : img.bounds.minY < img.bounds.maxY := by rw [hb]; dsimp only; omega
  have hw : 1 ≤ Int.tdiv
      (if (⟨dir.y, dir.x⟩ : Pt).x ≠ 0 then img.bounds.maxX else img.bounds.maxY) 32 := by
    rcases hd with h | h | h | h <;> subst h <;> simp [hb] <;>
      exact one_le_tdiv_32 (by omega)
  obtain ⟨⟨pa, ph⟩, h0⟩ := Extended.lineAverageHash_total img
    (pointInScanCorner img.bounds dir) (isUnitDir_swap hd) hw
    (@stepsScan_corner_le img.bounds _ hd).2
  apply Extended.hashBorder_exhausts img hd pa ph
  · intro j hjin
    rw [Extended.lineAverageHash_path_const img c hc hd hx hy j hjin]
    exact h0
  · exact corner_inRect hd hx hy
  · rcases hd with h | h | h | h <;> subst h <;>
      simp only [hb, scanPathPoint, pointInScanCorner, Pt.add, Pt.smul, Pt.inRect,
        Bool.and_eq_true, decide_eq_true_eq] <;>
      norm_num <;> omega

/-! Bit-position bounds of the line hash (window accounting). -/

theorem tdiv_le_tdiv_succ {i w : Int} (hi : 0 ≤ i) (hw : 1 ≤ w) :
    Int.tdiv i w ≤ Int.tdiv (i + 1) w := by
  rw [Int.tdiv_eq_ediv hi (by omega), Int.tdiv_eq_ediv (by omega) (by omega)]
  exact Int.ediv_le_ediv (by omega) (by omega)

theorem tdiv_le_tdiv_of_le {i j w : Int} (hi : 0 ≤ i) (hij : i ≤ j) (hw : 1 ≤ w) :
    Int.tdiv i w ≤ Int.tdiv j w := by
  rw [Int.tdiv_eq_ediv hi (by omega), Int.tdiv_eq_ediv (by omega) (by omega)]
  exact Int.ediv_le_ediv (by omega) hij

/-- Crossing a window boundary advances the window index by one. -/
theorem tdiv_succ_of_tmod {i w : Int} (hw : 1 ≤ w)
    (hm : Int.tmod i w = w - 1) : Int.tdiv (i + 1) w = Int.tdiv i w + 1 := by
  have h1 := Int.tdiv_add_tmod i w
  have hexp : w * (Int.tdiv i w + 1) = w * Int.tdiv i w + w := by ring
  have h2 : i + 1 = w * (Int.tdiv i w + 1) := by omega
  rw [h2, Int.mul_tdiv_cancel_left _ (by omega : w ≠ 0)]

theorem lt_pow_min_mono {n : Nat} {P Q : Nat} (hPQ : P ≤ Q)
    (h : n < 2 ^ min 32 P) : n < 2 ^ min 32 Q :=
  lt_of_lt_of_le h (Nat.pow_le_pow_right (by omega) (by omega))

/-- A successful `setBit32` at window index `pos` keeps the hash below the
next window boundary (capped at the hash width). -/
theorem setBit32_lt {n : Nat} {pos : Int} {m : Nat} (hpos : 0 ≤ pos)
    (h : setBit32 n pos = .ok m) (hn : n < 2 ^ min 32 pos.toNat) :
    m < 2 ^ min 32 (pos.toNat + 1) := by
  unfold setBit32 at h
  rw [if_neg (by omega)] at h
  by_cases hlt : pos < 32
  · rw [if_pos hlt] at h
    cases h
    have hp32 : pos.toNat < 32 := by omega
    have hmin1 : min 32 pos.toNat = pos.toNat := by omega
    have hmin2 : min 32 (pos.toNat + 1) = pos.toNat + 1 := by omega
    rw [hmin2]
    apply Nat.or_lt_two_pow
    · rw [hmin1] at hn
      exact lt_of_lt_of_le hn (Nat.pow_le_pow_right (by omega) (by omega))
    · have : (1 <<< pos.toNat) = 2 ^ pos.toNat := by
        simp [Nat.shiftLeft_eq]
      rw [this]
      exact Nat.pow_lt_pow_right (by omega) (by omega)
  · rw [if_neg hlt] at h
    cases h
    have h32b : min 32 (pos.toNat + 1) = min 32 pos.toNat := by omega
    rw [h32b]
    exact hn

/-- One window flush keeps both hashes below the boundary of the next
window index. -/
theorem Extended.flushWindow_bits {w i : Int} (hw : 1 ≤ w) (hi : 0 ≤ i)
    {ps lo hi2 a hcc : Nat} {ps2 lo2 hi3 a2 hc2 : Nat}
    (hfl : Extended.flushWindow w i ps lo hi2 a hcc = .ok (ps2, lo2, hi3, a2, hc2))
    (ha : a < 2 ^ min 32 (Int.tdiv i w).toNat)
    (hh : hcc < 2 ^ min 32 (Int.tdiv i w).toNat) :
    a2 < 2 ^ min 32 (Int.tdiv (i + 1) w).toNat ∧
    hc2 < 2 ^ min 32 (Int.tdiv (i + 1) w).toNat := by
  have hq0 : 0 ≤ Int.tdiv i w := Int.tdiv_nonneg hi (by omega)
  have hmono : Int.tdiv i w ≤ Int.tdiv (i + 1) w := tdiv_le_tdiv_succ hi hw
  unfold Extended.flushWindow at hfl
  by_cases hm : Int.tmod i w = w - 1
  · have hsucc : Int.tdiv (i + 1) w = Int.tdiv i w + 1 := tdiv_succ_of_tmod hw hm
    have hexp : (Int.tdiv (i + 1) w).toNat = (Int.tdiv i w).toNat + 1 := by omega
    rw [if_pos hm] at hfl
    rw [hexp]
    split_ifs at hfl with hps hlo hhi
    · cases hsb : setBit32 a (Int.tdiv i w) <;> rw [hsb] at hfl
      · cases hfl
      · cases hsb2 : setBit32 hcc (Int.tdiv i w) <;> rw [hsb2] at hfl
        · cases hfl
        · cases hfl
          exact ⟨setBit32_lt hq0 hsb ha, setBit32_lt hq0 hsb2 hh⟩
    · cases hsb : setBit32 a (Int.tdiv i w) <;> rw [hsb] at hfl
      · cases hfl
      · cases hfl
        exact ⟨setBit32_lt hq0 hsb ha, lt_pow_min_mono (by omega) hh⟩
    · cases hsb2 : setBit32 hcc (Int.tdiv i w) <;> rw [hsb2] at hfl
      · cases hfl
      · cases hfl
        exact ⟨lt_pow_min_mono (by omega) ha, setBit32_lt hq0 hsb2 hh⟩
    · cases hfl
      exact ⟨lt_pow_min_mono (by omega) ha, lt_pow_min_mono (by omega) hh⟩
  · rw [if_neg hm] at hfl
    cases hfl
    have hexp : (Int.tdiv i w).toNat ≤ (Int.tdiv (i + 1) w).toNat := by omega
    exact ⟨lt_pow_min_mono hexp ha, lt_pow_min_mono hexp hh⟩

/-- Along a rightward sweep, every bit the extended hasher can set lies
below the number of windows the visited pixels complete. -/
theorem Extended.hashLoop_bits (img : Raster) (w : Int) (hw : 1 ≤ w) :
    ∀ (fuel : Nat) (x y i : Int), 0 ≤ i → x ≤ img.bounds.maxX →
    ∀ ps lo hi2 a hcc : Nat,
      a < 2 ^ min 32 (Int.tdiv i w).toNat →
      hcc < 2 ^ min 32 (Int.tdiv i w).toNat →
      ∀ a2 hc2 : Nat,
        Extended.lineAverageHashLoop img w ⟨1, 0⟩ ⟨x, y⟩ i ps lo hi2 a hcc fuel =
          .ok (a2, hc2) →
        a2 < 2 ^ min 32 (Int.tdiv (i + (img.bounds.maxX - x)) w).toNat ∧
        hc2 < 2 ^ min 32 (Int.tdiv (i + (img.bounds.maxX - x)) w).toNat := by
  intro fuel
  induction fuel with
  | zero =>
    intro x y i hi hx ps lo hi2 a hcc ha hh a2 hc2 heq
    cases heq
  | succ f ih =>
    intro x y i hi hx ps lo hi2 a hcc ha hh a2 hc2 heq
    simp only [Extended.lineAverageHashLoop] at heq
    by_cases hin : (⟨x, y⟩ : Pt).inRect img.bounds = true
    · rw [if_pos hin, if_neg (by omega : ¬w = 0)] at heq
      have hxlt : x < img.bounds.maxX := by
        simp only [Pt.inRect, Bool.and_eq_true, decide_eq_true_eq] at hin
        exact hin.1.1.2
      cases hfl : Extended.flushWindow w i ps lo hi2 a hcc with
      | error f2 =>
        rw [hfl] at heq
        cases heq
      | ok t =>
        obtain ⟨ps2, lo2, hi3, a3, hc3⟩ := t
        rw [hfl] at heq
        dsimp only [Pt.add] at heq
        obtain ⟨hb1, hb2⟩ := Extended.flushWindow_bits hw hi hfl ha hh
        have hrec := ih (x + 1) (y + 0) (i + 1) (by omega) (by omega) _ _ _ _ _ hb1 hb2
          a2 hc2 heq
        have harg : i + 1 + (img.bounds.maxX - (x + 1)) = i + (img.bounds.maxX - x) := by
          ring
        rw [harg] at hrec
        exact hrec
    · rw [if_neg hin] at heq
      cases heq
      have hmono : Int.tdiv i w ≤ Int.tdiv (i + (img.bounds.maxX - x)) w :=
        tdiv_le_tdiv_of_le hi (by omega) hw
      have hq0 : 0 ≤ Int.tdiv i w := Int.tdiv_nonneg hi (by omega)
      exact ⟨lt_pow_min_mono (by omega) ha, lt_pow_min_mono (by omega) hh⟩

/-! Claim theorems. -/

/-- C1: the claim says the Line Hasher must not trigger a division fault on
a raster whose extent in the swept axis is positive but below the hash
width, and must still return a valid hash.  The code has no such guard: on
a 16x16 raster the extended `lineAverageHash` computes `windowSize = 16/32
= 0` and the expression `i % windowSize` divides by zero at the first
pixel; likewise the simplified hasher on a 48x48 raster (`48/64 = 0`).
This theorem evaluates the code at those failing inputs. -/
theorem C1_div_fault_unguarded :
    Extended.lineAverageHash img16 ⟨0, 0⟩ ⟨1, 0⟩ = .error .divideByZero ∧
    Simplified.lineAverageHash (some img48) ⟨0, 0⟩ ⟨1, 0⟩ = .error .divideByZero := by
  decide

/-- C2 counterexample: scanning `imgC2` downward (`dir = (0,1)`), rows 0
and 1 hash to `(4294967294, 0)` and the black row 2 hashes to `(0, 0)`;
the comparator first declares a difference when the current line is row 2
(rows 0 and 1 matched), yet `findBorderUsingAvgHash` returns row 2 itself,
not the previous line row 1 — so the returned edge is not the position of
the previous line for a positive scan direction. -/
theorem C2_counterexample :
    Extended.findBorderUsingAvgHash imgC2 ⟨0, 1⟩ = .ok ⟨0, 2⟩ ∧
    Extended.lineAverageHash imgC2 ⟨0, 0⟩ ⟨1, 0⟩ = .ok (4294967294, 0) ∧
    Extended.lineAverageHash imgC2 ⟨0, 1⟩ ⟨1, 0⟩ = .ok (4294967294, 0) ∧
    Extended.lineAverageHash imgC2 ⟨0, 2⟩ ⟨1, 0⟩ = .ok (0, 0) ∧
    Extended.hashesMatch 4294967294 0 4294967294 0 = true ∧
    Extended.hashesMatch 4294967294 0 0 0 = false ∧
    (⟨0, 2⟩ : Pt) ≠ ⟨0, 1⟩ := by
  decide

/-- C3: the Hash Comparator decision rule.  Extended profile: two
consecutive lines are declared different exactly when either the previous
base hash is fully saturated (all 32 bits zero or all 32 bits one) and the
summed Hamming distance of base and contrast hashes is at least 1, or that
summed distance is at least 3.  Simplified profile: lines are different
exactly when the Hamming distance of the single hashes is at least 1. -/
theorem C3_hash_comparator_decision :
    (∀ prevAvg prevHighContrast avgHash highContrastHash : Nat,
      Extended.hashesMatch prevAvg prevHighContrast avgHash highContrastHash = false ↔
        (((prevAvg = 4294967295 ∨ prevAvg = 0) ∧
            1 ≤ popCount (avgHash ^^^ prevAvg) +
              popCount (highContrastHash ^^^ prevHighContrast)) ∨
          3 ≤ popCount (avgHash ^^^ prevAvg) +
            popCount (highContrastHash ^^^ prevHighContrast))) ∧
    (∀ prev hash : Nat,
      Simplified.linesDiffer prev hash = true ↔ 1 ≤ popCount (hash ^^^ prev)) := by
  constructor
  · intro prevAvg prevHighContrast avgHash highContrastHash
    simp only [Extended.hashesMatch, minDistinctBitsBetweenLines,
      maxDistinctBitsBetweenLines, Nat.xor_eq_zero, ge_iff_le]
    split_ifs with h1 h2 <;> simp_all
  · intro prev hash
    simp [Simplified.linesDiffer, minDistinctBitsBetweenLines]

set_option maxHeartbeats 4000000 in
/-- C4 counterexample: on the fully uniform white raster `white32` (and
likewise the black `black32`), both `Bounds` and the extended `BoundsHash`
return the FULL raster rectangle `(0,0)-(32,32)` — area 1024, with each
edge at its own starting side — not a rectangle of zero or near-zero area
with edges collapsed toward the corners. -/
theorem C4_counterexample :
    Extended.BoundsHash white32 = .ok white32.bounds ∧
    Bounds white32 = .ok white32.bounds ∧
    Extended.BoundsHash black32 = .ok black32.bounds ∧
    Bounds black32 = .ok black32.bounds ∧
    white32.bounds = ⟨0, 0, 32, 32⟩ ∧
    (white32.bounds.maxX - white32.bounds.minX) *
      (white32.bounds.maxY - white32.bounds.minY) = 1024 := by
  decide

/-- C5: `Crop` fails exactly when the raster type lacks the `SubImage`
capability; the failure carries no partial image, and with the capability
present the result is the requested sub-view with no error. -/
theorem C5_crop_capability : ∀ (img : Raster) (bounds : Rect),
    ((∃ e, Crop img bounds = .error e) ↔ img.hasSubImage = false) ∧
    (img.hasSubImage = true → Crop img bounds = .ok (.subView img bounds)) := by
  intro img bounds
  cases h : img.hasSubImage
  · constructor
    · constructor
      · intro _
        rfl
      · intro _
        exact ⟨.unsupported, by simp [Crop, h]⟩
    · intro hc
      simp [h] at hc
  · constructor
    · constructor
      · intro he
        obtain ⟨e, he⟩ := he
        simp [Crop, h] at he
      · intro hf
        simp [h] at hf
    · intro _
      simp [Crop, h]

/-- Witness for C5 at concrete inputs: a raster with the capability is
cropped without error, and one without it yields the capability error. -/
theorem C5_crop_capability_witness :
    imgPlain.hasSubImage = true ∧
    Crop imgPlain ⟨0, 0, 4, 4⟩ = .ok (.subView imgPlain ⟨0, 0, 4, 4⟩) ∧
    Crop imgNoSub ⟨0, 0, 4, 4⟩ = .error .unsupported :=
  ⟨rfl, (C5_crop_capability imgPlain ⟨0, 0, 4, 4⟩).2 rfl, rfl⟩

/-- C6: `Auto` returns exactly `Crop(img, BoundsHash(img))` — the bounds
always come from the hash-based variant and the result, error or not, is
the Cropper result unchanged (in both profiles). -/
theorem C6_auto_is_crop_of_boundsHash : ∀ img : Raster,
    Extended.Auto img = (Extended.BoundsHash img).map (fun b => Crop img b) ∧
    Simplified.Auto img = (Simplified.BoundsHash img).map (fun b => Crop img b) := by
  intro img
  constructor
  · unfold Extended.Auto
    cases hb : Extended.BoundsHash img with
    | error f => simp [Except.map]
    | ok b => cases hc : Crop img b <;> simp [Except.map, hc]
  · unfold Simplified.Auto
    cases hb : Simplified.BoundsHash img with
    | error f => simp [Except.map]
    | ok b => cases hc : Crop img b <;> simp [Except.map, hc]

/-- C8: the claim says every scanning and hashing operation is total and
never panics, even for raster types that implement only the basic
interface and not `image.RGBA64Image`.  In the simplified profile the
assertion `img.(image.RGBA64Image)` is ignored when it fails, and
`lineAverageHash` then dereferences the nil interface: on the 64x64 raster
`imgC8` (non-degenerate bounds, no RGBA64 support) both
`findBorderUsingAvgHash` and `BoundsHash` panic. -/
theorem C8_scan_panics_without_rgba64 :
    Simplified.findBorderUsingAvgHash imgC8 ⟨0, 1⟩ = .error .nilPointer ∧
    Simplified.BoundsHash imgC8 = .error .nilPointer := by
  decide

/-- C7 counterexample: on `imgC7` the first line scanned leftward from
x = 3 that contains a dark pixel is x = 2 (x = 3 is blank), yet
`findBorder` with direction `(-1,0)` returns x = 3, not the first
non-blank line. -/
theorem C7_counterexample :
    findBorder imgC7 ⟨-1, 0⟩ = .ok ⟨3, 0⟩ ∧
    scanLineForNonWhitespace imgC7 ⟨2, 0⟩ ⟨0, -1⟩ (scanFuel imgC7.bounds) = .ok true ∧
    scanLineForNonWhitespace imgC7 ⟨3, 0⟩ ⟨0, -1⟩ (scanFuel imgC7.bounds) = .ok false ∧
    (⟨3, 0⟩ : Pt) ≠ ⟨2, 0⟩ := by
  decide

/-- C7 amended: the naive edge scanner returns the coordinate of the first
non-blank line itself for positive directions, and one step back toward the
start (the blank line just before it, making the coordinate an exclusive
bound) for negative directions; when every line of the pass is blank, it
returns the starting corner (positive directions) or one step back from it
(negative directions), i.e. no crop on that side. -/
theorem C7_amended : ∀ (img : Raster) (dir : Pt), isUnitDir dir →
    (∀ m : Nat,
      (∀ j : Nat, j ≤ m → (scanPathPoint img.bounds dir j).inRect img.bounds = true) →
      (∀ j : Nat, j < m →
        scanLineForNonWhitespace img (scanPathPoint img.bounds dir j) ⟨dir.y, dir.x⟩
          (scanFuel img.bounds) = .ok false) →
      scanLineForNonWhitespace img (scanPathPoint img.bounds dir m) ⟨dir.y, dir.x⟩
        (scanFuel img.bounds) = .ok true →
      findBorder img dir =
        .ok (if dir.x < 0 || dir.y < 0 then (scanPathPoint img.bounds dir m).sub dir
          else scanPathPoint img.bounds dir m)) ∧
    ((∀ dpt : Pt, stepsScan img.bounds ⟨dir.y, dir.x⟩ dpt + 1 ≤ scanFuel img.bounds →
        scanLineForNonWhitespace img dpt ⟨dir.y, dir.x⟩ (scanFuel img.bounds) = .ok false) →
      findBorder img dir =
        .ok (if dir.x < 0 || dir.y < 0 then (pointInScanCorner img.bounds dir).sub dir
          else pointInScanCorner img.bounds dir)) := by
  intro img dir hd
  constructor
  · intro m hin hfalse htrue
    rw [findBorder, findBorderLoop_breaks img hd m hin hfalse htrue]
  · intro hfalse
    rw [findBorder, findBorderLoop_exhausts img hd hfalse]

/-- Witness for C7 amended: on `imgC7` the leftward scan finds its first
non-blank line at x = 2 (m = 1) and returns x = 3, one past it; on the
uniform `white32` the rightward scan exhausts and returns the corner
x = 0. -/
theorem C7_amended_witness :
    findBorder imgC7 ⟨-1, 0⟩ = .ok ⟨3, 0⟩ ∧
    findBorder white32 ⟨1, 0⟩ = .ok ⟨0, 0⟩ := by
  constructor
  · have h := (C7_amended imgC7 ⟨-1, 0⟩ (by simp [isUnitDir])).1 1
      (by decide) (by decide) (by decide)
    exact h.trans (by decide)
  · have h := (C7_amended white32 ⟨1, 0⟩ (by simp [isUnitDir])).2
      (fun dpt hdpt =>
        scanLine_false_of_light white32 255 (fun _ _ => rfl) (by decide)
          (by simp [isUnitDir]) _ dpt hdpt)
    exact h.trans (by decide)

/-- C2 amended: when the extended-profile hash scan first meets a line
whose hashes the comparator declares different from the previous line
(line `m` of the pass, lines `1..m-1` having matched), the returned edge
coordinate is that differing line itself for positive directions, and one
step back from it (the previous line, making the coordinate an exclusive
bound) for negative directions — not the previous line in both cases. -/
theorem C2_amended : ∀ (img : Raster) (dir : Pt), isUnitDir dir →
    ∀ (m : Nat), 1 ≤ m → ∀ hshA hshC : Nat → Nat,
    (∀ j : Nat, j ≤ m → (scanPathPoint img.bounds dir j).inRect img.bounds = true) →
    (∀ j : Nat, j ≤ m →
      Extended.lineAverageHash img (scanPathPoint img.bounds dir j) ⟨dir.y, dir.x⟩ =
        .ok (hshA j, hshC j)) →
    (∀ j : Nat, 1 ≤ j → j < m →
      Extended.hashesMatch (hshA (j - 1)) (hshC (j - 1)) (hshA j) (hshC j) = true) →
    Extended.hashesMatch (hshA (m - 1)) (hshC (m - 1)) (hshA m) (hshC m) = false →
    Extended.findBorderUsingAvgHash img dir =
      .ok (if dir.x < 0 || dir.y < 0 then (scanPathPoint img.bounds dir m).sub dir
        else scanPathPoint img.bounds dir m) := by
  intro img dir hd m hm hshA hshC hin hhash hmatch hbreak
  exact Extended.hashBorderLoop_breaks img hd m hm hshA hshC hin hhash hmatch hbreak

/-- Witness for C2 amended: on `imgC2` the downward scan matches rows 0
and 1 and first differs at row 2 (m = 2), and the returned coordinate is
row 2 itself, the differing line. -/
theorem C2_amended_witness :
    Extended.findBorderUsingAvgHash imgC2 ⟨0, 1⟩ = .ok ⟨0, 2⟩ := by
  have h := C2_amended imgC2 ⟨0, 1⟩ (by simp [isUnitDir]) 2 (by omega)
    (fun j => if j = 2 then 0 else 4294967294) (fun _ => 0)
    (by decide) (by decide) (by decide) (by decide)
  exact h.trans (by decide)

/-- C4 amended: for every fully uniform (single-color) raster (with origin
bounds and both extents at least the hash width, so that the hasher is
defined), `Bounds` and the extended `BoundsHash` both return the FULL
raster rectangle — every edge defaults to its own starting side and
nothing is cropped — rather than a rectangle of zero or near-zero area. -/
theorem C4_amended : ∀ (img : Raster) (c : Nat) (W H : Int),
    img.bounds = ⟨0, 0, W, H⟩ → 32 ≤ W → 32 ≤ H → (∀ x y, img.At x y = c) →
    Bounds img = .ok img.bounds ∧ Extended.BoundsHash img = .ok img.bounds := by
  intro img c W H hb hW hH hc
  have hx : img.bounds.minX < img.bounds.maxX := by rw [hb]; dsimp only; omega
  have hy : img.bounds.minY < img.bounds.maxY := by rw [hb]; dsimp only; omega
  constructor
  · have h1 := @findBorder_uniform img c hc hx hy ⟨1, 0⟩ (by simp [isUnitDir])
    have h2 := @findBorder_uniform img c hc hx hy ⟨-1, 0⟩ (by simp [isUnitDir])
    have h3 := @findBorder_uniform img c hc hx hy ⟨0, 1⟩ (by simp [isUnitDir])
    have h4 := @findBorder_uniform img c hc hx hy ⟨0, -1⟩ (by simp [isUnitDir])
    rw [Bounds, h1, h2, h3, h4]
    dsimp only
    rw [hb]
    simp only [pointInScanCorner, Pt.sub, mkRect]
    norm_num
    constructor
    · omega
    constructor
    · omega
    constructor
    · omega
    · omega
  · have h1 := @Extended.findBorderUsingAvgHash_uniform img c hc W H hb hW hH ⟨1, 0⟩
      (by simp [isUnitDir])
    have h2 := @Extended.findBorderUsingAvgHash_uniform img c hc W H hb hW hH ⟨-1, 0⟩
      (by simp [isUnitDir])
    have h3 := @Extended.findBorderUsingAvgHash_uniform img c hc W H hb hW hH ⟨0, 1⟩
      (by simp [isUnitDir])
    have h4 := @Extended.findBorderUsingAvgHash_uniform img c hc W H hb hW hH ⟨0, -1⟩
      (by simp [isUnitDir])
    rw [Extended.BoundsHash, h1, h2, h3, h4]
    dsimp only
    rw [hb]
    simp only [pointInScanCorner, Pt.sub, mkRect]
    norm_num
    constructor
    · omega
    constructor
    · omega
    constructor
    · omega
    · omega

/-- Witness for C4 amended at the concrete uniform white and black 32x32
rasters: both scanners return the full rectangle. -/
theorem C4_amended_witness :
    Bounds white32 = .ok white32.bounds ∧
    Extended.BoundsHash white32 = .ok white32.bounds ∧
    Bounds black32 = .ok black32.bounds ∧
    Extended.BoundsHash black32 = .ok black32.bounds := by
  have hw := C4_amended white32 255 32 32 rfl (by omega) (by omega) (fun _ _ => rfl)
  have hbk := C4_amended black32 0 32 32 rfl (by omega) (by omega) (fun _ _ => rfl)
  exact ⟨hw.1, hw.2, hbk.1, hbk.2⟩

/-- C9: `Bounds`, `BoundsHash` and `Auto` terminate on every raster, each
directional scan performing at most one full inward pass.  The embedding
gives every loop the one-pass iteration budget `scanFuel` (width + height
+ 2) and marks a budget overrun with `Fault.outOfFuel`; the theorem shows
the marker is unreachable: the naive `Bounds` always returns a rectangle,
and the hash-based `BoundsHash` and `Auto` of both profiles never abort
with the budget marker (any abort of theirs is a genuine runtime panic,
which terminates the computation as well). -/
theorem C9_termination : ∀ img : Raster,
    (∃ r, Bounds img = .ok r) ∧
    Extended.BoundsHash img ≠ .error .outOfFuel ∧
    Extended.Auto img ≠ .error .outOfFuel ∧
    Simplified.BoundsHash img ≠ .error .outOfFuel ∧
    Simplified.Auto img ≠ .error .outOfFuel := by
  intro img
  refine ⟨Bounds_total img, Extended.BoundsHash_not_fuel img, ?_,
    Simplified.BoundsHash64_not_fuel img, ?_⟩
  · unfold Extended.Auto
    cases hb : Extended.BoundsHash img with
    | error f =>
      have := Extended.BoundsHash_not_fuel img
      rw [hb] at this
      simpa using this
    | ok b =>
      dsimp only
      cases Crop img b <;> simp
  · unfold Simplified.Auto
    cases hb : Simplified.BoundsHash img with
    | error f =>
      have := Simplified.BoundsHash64_not_fuel img
      rw [hb] at this
      simpa using this
    | ok b =>
      dsimp only
      cases Crop img b <;> simp

/-- Witness for C9 at a concrete raster. -/
theorem C9_termination_witness :
    (∃ r, Bounds white32 = .ok r) ∧
    Extended.BoundsHash white32 ≠ .error .outOfFuel ∧
    Extended.Auto white32 ≠ .error .outOfFuel ∧
    Simplified.BoundsHash white32 ≠ .error .outOfFuel ∧
    Simplified.Auto white32 ≠ .error .outOfFuel :=
  C9_termination white32

/-- C10 counterexample: `imgC10` has swept-axis minimum 1 (positive), yet
its line hash is `4294967294`, whose top bit 31 is set — the high-order
bits are not always zero (39 windows of size `40/32 = 1` complete, which
is not fewer than the hash width 32). -/
theorem C10_counterexample :
    imgC10.bounds.minX = 1 ∧
    Extended.lineAverageHash imgC10 ⟨1, 0⟩ ⟨1, 0⟩ = .ok (4294967294, 0) ∧
    Nat.testBit 4294967294 31 = true := by
  decide

/-- C10 amended: the Line Hasher computes its window size from the
raster Max coordinate in the swept axis (`windowSize = Bounds().Max.X /
32` for a rightward sweep), not from the number of pixels on the line;
consequently only `extent = maxX - minX` pixels are hashed, the completed
windows number `extent / windowSize` — which for a positive minimum can
also reach or exceed the hash width — and every set bit of both hashes
lies below position `min 32 (extent / windowSize)`; bits at or above that
position are always zero. -/
theorem C10_amended : ∀ (img : Raster) (y : Int),
    1 ≤ Int.tdiv img.bounds.maxX 32 →
    img.bounds.minX ≤ img.bounds.maxX →
    ∀ a hcc : Nat,
      Extended.lineAverageHash img ⟨img.bounds.minX, y⟩ ⟨1, 0⟩ = .ok (a, hcc) →
      a < 2 ^ min 32 (Int.tdiv (img.bounds.maxX - img.bounds.minX)
          (Int.tdiv img.bounds.maxX 32)).toNat ∧
      hcc < 2 ^ min 32 (Int.tdiv (img.bounds.maxX - img.bounds.minX)
          (Int.tdiv img.bounds.maxX 32)).toNat := by
  intro img y hw hxm a hcc heq
  unfold Extended.lineAverageHash at heq
  norm_num at heq
  have h := Extended.hashLoop_bits img _ hw (scanFuel img.bounds)
    img.bounds.minX y 0 le_rfl hxm 0 0 0 0 0
    (by simp [Int.zero_tdiv]) (by simp [Int.zero_tdiv]) a hcc heq
  simpa using h

/-- Witness for C10 amended: a white raster with bounds `(8,0)-(64,1)` has
window size `64/32 = 2` and 56 hashed pixels, so 28 windows complete; the
base hash `268435454` indeed lies below `2^28` (and only just: its bits
1 through 27 are set). -/
theorem C10_amended_witness :
    Extended.lineAverageHash ⟨⟨8, 0, 64, 1⟩, whiteAt, true, true⟩ ⟨8, 0⟩ ⟨1, 0⟩ =
      .ok (268435454, 1) ∧
    (268435454 : Nat) < 2 ^ min 32 (Int.tdiv ((64 : Int) - 8) (Int.tdiv 64 32)).toNat := by
  refine ⟨by decide, ?_⟩
  exact (C10_amended ⟨⟨8, 0, 64, 1⟩, whiteAt, true, true⟩ 0 (by decide) (by decide)
    268435454 1 (by decide)).1

end Crop
